import Mathlib

/-!
# go-knn: a k-nearest-neighbours classifier (`main.go`)

Shallow embedding of the classification and evaluation pipeline of `main.go`:
`euclideanDistance`, `getNeighbors`, `getClass`, `shuffle`, `splitData` and
`getAccuracy`.

Modelling conventions.

* Finite `float64` values are elements of a linear ordered field `F` with a floor
  function; every definition is executable at `F = ℚ`. The subtraction, the
  addition, the multiplication and `math.Pow(x, 2)` of the code are the exact
  operations followed by `roundF64`, the IEEE 754 rounding to the nearest
  `float64` (ties to even, subnormal values included). Overflow to an infinity is
  outside the model.
* The quotient of `getAccuracy` is a `Float64` value, which can be a NaN: a
  `float64` division by zero does not panic. Its finite value is kept unrounded.
* The conversion `float64(n)` of a slice length or of a counter is exact (these
  numbers are below 2^53).
* `math.Sqrt` is library code and is a parameter `sqrt : F → F`; concrete
  evaluations use `sqrtQ`, which is the exact square root on every rational
  that is the square of a rational.
* `sort.SliceStable` is library code; it is modelled by a stable insertion sort
  driven by the same `less` callback (`sliceStable`).
* Go slices are lists; an out-of-range slice expression (a run-time panic) is
  `none`.
* Go `int` labels are `Int`; vote and hit counters are `Nat` (they are bounded
  by the length of a slice, so 64-bit overflow cannot occur).
* The iteration order of a Go map is unspecified; `getClass` takes the order in
  which the tally is traversed as an explicit argument.
* `rand.Intn` is a parameter `intn`: `intn i` is the value that
  `rand.Intn(i + 1)` returns in the iteration of `shuffle` with loop index `i`.
-/

namespace Knn

/-- The record type `datum` of `main.go`. -/
structure datum (F : Type) where
  x1 : F
  x2 : F
  label : Int
  prediction : Int
  distance : F
deriving DecidableEq

/-- The zero value of `datum`, as produced by `make([]datum, n)`. -/
def datum.zero {F : Type} [Zero F] : datum F := ⟨0, 0, 0, 0, 0⟩

/-- Rounding to the nearest integer, a tie going to the even neighbour. -/
def roundHalfEven {F : Type} [LinearOrderedField F] [FloorRing F] (y : F) : Int :=
  if y - (Int.floor y : F) < 1 / 2 then Int.floor y
  else if 1 / 2 < y - (Int.floor y : F) then Int.floor y + 1
  else if Int.floor y % 2 = 0 then Int.floor y else Int.floor y + 1

/-- Exponent of the last mantissa bit of the `float64` values around `x > 0`: a
`float64` has 53 mantissa bits, and below 2^-1022 (subnormal values) the exponent
stays at -1074. -/
def ulpExp {F : Type} [LinearOrderedField F] [FloorRing F] (x : F) : Int :=
  max (-1074) (Int.log 2 x - 52)

/-- The `float64` nearest to `x ≥ 0`. -/
def roundPos {F : Type} [LinearOrderedField F] [FloorRing F] (x : F) : F :=
  (roundHalfEven (x / 2 ^ ulpExp x) : F) * 2 ^ ulpExp x

/-- The rounding of IEEE 754 `float64` arithmetic (round to nearest, ties to even):
the finite `float64` values are the numbers `m * 2 ^ e` with `|m| < 2 ^ 53` and
`-1074 ≤ e`, and every arithmetic operation returns the rounding of its exact
result. Overflow to an infinity (results of magnitude 2^1024 and above) is not
modelled. -/
def roundF64 {F : Type} [LinearOrderedField F] [FloorRing F] (x : F) : F :=
  if 0 ≤ x then roundPos x else -roundPos (-x)

/-- The `float64` difference `a - b`. -/
def fsub {F : Type} [LinearOrderedField F] [FloorRing F] (a b : F) : F := roundF64 (a - b)

/-- The `float64` sum `a + b`. -/
def fadd {F : Type} [LinearOrderedField F] [FloorRing F] (a b : F) : F := roundF64 (a + b)

/-- The `float64` product `a * b`. -/
def fmul {F : Type} [LinearOrderedField F] [FloorRing F] (a b : F) : F := roundF64 (a * b)

/-- The call `math.Pow(x, 2)`: the rounded square of `x`. -/
def powTwo {F : Type} [LinearOrderedField F] [FloorRing F] (x : F) : F := roundF64 (x ^ 2)

/-- A `float64` result that need not be finite. -/
inductive Float64 (F : Type) where
  | finite (x : F)
  | posInf
  | negInf
  | nan
deriving DecidableEq

/-- The `float64` quotient `a / b`. A division by zero is not a panic: it gives an
infinity or, for `0 / 0`, a NaN. A finite quotient is kept exact (its rounding to
the nearest `float64` is left out). -/
def fdiv {F : Type} [LinearOrderedField F] (a b : F) : Float64 F :=
  if b = 0 then (if a = 0 then Float64.nan else if 0 < a then Float64.posInf else Float64.negInf)
  else Float64.finite (a / b)

/-- Method `(d *datum) euclideanDistance(testInstance *datum)`: stores the
distance in `d.distance`; the result is the receiver after the call. -/
def euclideanDistance {F : Type} [LinearOrderedField F] [FloorRing F] (sqrt : F → F)
    (d testInstance : datum F) : datum F :=
  let dx := powTwo (fsub d.x1 testInstance.x1)
  let dy := powTwo (fsub d.x2 testInstance.x2)
  { d with distance := sqrt (fadd dx dy) }

/-- One insertion step of the stable sort: `x` originally precedes every element
of the (sorted) list, and moves right only past elements strictly less than it. -/
def insertStable {α : Type} (less : α → α → Bool) (x : α) : List α → List α
  | [] => [x]
  | y :: ys => if less y x then y :: insertStable less x ys else x :: y :: ys

/-- Model of `sort.SliceStable(s, less)`: stable insertion sort. -/
def sliceStable {α : Type} (less : α → α → Bool) : List α → List α
  | [] => []
  | x :: xs => insertStable less x (sliceStable less xs)

/-- Memory touched by `getNeighbors`: the receiver `d`, the caller's slice
`train` and the local slice `distances`. -/
structure NeighborsMem (F : Type) where
  d : datum F
  train : List (datum F)
  distances : List (datum F)

/-- Body of `for i, v := range train`: `v` is a copy of `train[i]`,
`v.euclideanDistance(d)` writes the copy, which is stored in `distances[i]`. -/
def getNeighborsBody {F : Type} [LinearOrderedField F] [FloorRing F] (sqrt : F → F)
    (m : NeighborsMem F) (i : Nat) : NeighborsMem F :=
  match m.train[i]? with
  | none => m
  | some v => { m with distances := m.distances.set i (euclideanDistance sqrt v m.d) }

/-- The memory when the loop of `getNeighbors` has finished. -/
def getNeighborsLoop {F : Type} [LinearOrderedField F] [FloorRing F] (sqrt : F → F)
    (d : datum F) (train : List (datum F)) : NeighborsMem F :=
  (List.range train.length).foldl (getNeighborsBody sqrt)
    ⟨d, train, List.replicate train.length datum.zero⟩

/-- The callback `func(i, j int) bool { return distances[i].distance < distances[j].distance }`. -/
def lessDistance {F : Type} [LinearOrderedField F] (a b : datum F) : Bool :=
  decide (a.distance < b.distance)

/-- The memory of `getNeighbors` after `sort.SliceStable(distances, ...)`, which
sorts the local slice in place. -/
def getNeighborsRun {F : Type} [LinearOrderedField F] [FloorRing F] (sqrt : F → F)
    (d : datum F) (train : List (datum F)) : NeighborsMem F :=
  let m := getNeighborsLoop sqrt d train
  { m with distances := sliceStable lessDistance m.distances }

/-- Method `(d *datum) getNeighbors(train []datum, k int) []datum`; `none` is the
panic of the slice expression `distances[len(distances)-k:]`. -/
def getNeighbors {F : Type} [LinearOrderedField F] [FloorRing F] (sqrt : F → F)
    (d : datum F) (train : List (datum F)) (k : Int) : Option (List (datum F)) :=
  let distances := (getNeighborsRun sqrt d train).distances
  let low : Int := (distances.length : Int) - k
  if 0 ≤ low ∧ low ≤ (distances.length : Int) then some (distances.drop low.toNat) else none

/-- The statement `votes[label]++` / `votes[label] = 1` of `getClass`, on a map
kept as a list of (key, value) entries. -/
def voteFor (votes : List (Int × Nat)) (label : Int) : List (Int × Nat) :=
  if votes.any (fun e => e.1 == label) then
    votes.map (fun e => if e.1 = label then (e.1, e.2 + 1) else e)
  else
    votes ++ [(label, 1)]

/-- The map `votes` of `getClass` when its first loop has finished. -/
def tally {F : Type} (neighbors : List (datum F)) : List (Int × Nat) :=
  neighbors.foldl (fun votes v => voteFor votes v.label) []

/-- Body of `for key, value := range votes`, on the pair `(max, class)`. -/
def pickStep (acc : Nat × Int) (e : Int × Nat) : Nat × Int :=
  if e.2 > acc.1 then (e.2, e.1) else acc

/-- Method `(d *datum) getClass(neighbors []datum) int`. The receiver is not used
by the body. `order` is the order in which `range votes` visits the map. -/
def getClass {F : Type} (order : List (Int × Nat) → List (Int × Nat))
    (_d : datum F) (neighbors : List (datum F)) : Int :=
  ((order (tally neighbors)).foldl pickStep (0, 0)).2

/-- The statement `arr[i], arr[j] = arr[j], arr[i]`; `none` is an index out of
range. -/
def swap {α : Type} (arr : List α) (i j : Nat) : Option (List α) :=
  match arr[i]?, arr[j]? with
  | some a, some b => some ((arr.set i b).set j a)
  | _, _ => none

/-- The loop `for i := ...; i > 0; i--` of `shuffle`, entered with loop index `i`. -/
def shuffleFrom {α : Type} (intn : Nat → Nat) : Nat → List α → Option (List α)
  | 0, arr => some arr
  | i + 1, arr => (swap arr (i + 1) (intn (i + 1))).bind (shuffleFrom intn i)

/-- Function `shuffle(arr []datum)`: the slice after the in-place shuffle. -/
def shuffle {α : Type} (intn : Nat → Nat) (arr : List α) : Option (List α) :=
  shuffleFrom intn (arr.length - 1) arr

/-- The conversion `int(x)` of a `float64`: truncation toward zero. -/
def toInt {F : Type} [LinearOrderedField F] [FloorRing F] (x : F) : Int :=
  if 0 ≤ x then Int.floor x else Int.ceil x

/-- Function `splitData(arr []datum, ratio float64) ([]datum, []datum)`; `none` is
the panic of a slice expression (`arr[splitIndex:]` needs
`0 <= splitIndex <= len(arr)`). The product is the `float64` product; the
conversion `float64(len(arr))` is exact for every length below 2^53. -/
def splitData {F : Type} [LinearOrderedField F] [FloorRing F] {α : Type}
    (arr : List α) (ratio : F) : Option (List α × List α) :=
  let splitIndex : Int := toInt (fmul ratio (arr.length : F))
  if 0 ≤ splitIndex ∧ splitIndex ≤ (arr.length : Int) then
    some (arr.take splitIndex.toNat, arr.drop splitIndex.toNat)
  else none

/-- Body of the loop of `getAccuracy`, on the pair `(ok, errors)`. -/
def accuracyStep {F : Type} (acc : Nat × List (datum F)) (v : datum F) :
    Nat × List (datum F) :=
  if v.label = v.prediction then (acc.1 + 1, acc.2) else (acc.1, acc.2 ++ [v])

/-- Function `getAccuracy(arr []datum) (float64, []datum)`; the first result is
the `float64` quotient `float64(ok) / float64(len(arr))`. -/
def getAccuracy {F : Type} [LinearOrderedField F] (arr : List (datum F)) :
    Float64 F × List (datum F) :=
  let acc := arr.foldl accuracyStep (0, [])
  (fdiv (acc.1 : F) (arr.length : F), acc.2)

/-- The body of the prediction loop of `main`:
`neighbors := v.getNeighbors(trainData, k)` followed by `v.getClass(neighbors)`. -/
def predict {F : Type} [LinearOrderedField F] [FloorRing F] (sqrt : F → F)
    (order : List (Int × Nat) → List (Int × Nat))
    (v : datum F) (trainData : List (datum F)) (k : Int) : Option Int :=
  (getNeighbors sqrt v trainData k).map (getClass order v)

/-- Integer square root by downward search from `r`. -/
def natSqrtFrom (n : Nat) : Nat → Nat
  | 0 => 0
  | r + 1 => if (r + 1) * (r + 1) ≤ n then r + 1 else natSqrtFrom n r

/-- A square root on `ℚ` for concrete runs: exact on every square of a rational
(numerator and denominator are rooted separately); used here only at such
arguments. -/
def sqrtQ (q : ℚ) : ℚ := (natSqrtFrom q.num.toNat q.num.toNat : ℚ) / (natSqrtFrom q.den q.den : ℚ)

/-! # Theorems -/

/-! ## The `float64` rounding -/

theorem roundHalfEven_intCast {F : Type} [LinearOrderedField F] [FloorRing F]
    (n : Int) : roundHalfEven (n : F) = n := by
  unfold roundHalfEven
  simp

theorem floor_le_roundHalfEven {F : Type} [LinearOrderedField F] [FloorRing F]
    (y : F) : Int.floor y ≤ roundHalfEven y := by
  unfold roundHalfEven
  split_ifs <;> omega

/-- Rounding to an integer does not step over an integer below. -/
theorem le_roundHalfEven {F : Type} [LinearOrderedField F] [FloorRing F]
    (y : F) (N : Int) (h : (N : F) ≤ y) : N ≤ roundHalfEven y :=
  le_trans (Int.le_floor.mpr h) (floor_le_roundHalfEven y)

/-- Rounding to an integer does not step over an integer above. -/
theorem roundHalfEven_le {F : Type} [LinearOrderedField F] [FloorRing F]
    (y : F) (N : Int) (h : y ≤ (N : F)) : roundHalfEven y ≤ N := by
  have hfl : Int.floor y ≤ N := by
    have : (Int.floor y : F) ≤ N := le_trans (Int.floor_le y) h
    exact_mod_cast this
  by_cases hfrac : y - (Int.floor y : F) < 1 / 2
  · unfold roundHalfEven
    rw [if_pos hfrac]
    exact hfl
  · have hlt : (Int.floor y : F) < (N : F) := by
      have : (0 : F) < 1 / 2 := by norm_num
      have h2 : (Int.floor y : F) < y := by linarith [not_lt.mp hfrac]
      exact lt_of_lt_of_le h2 h
    have hlt2 : Int.floor y < N := by exact_mod_cast hlt
    unfold roundHalfEven
    split_ifs <;> omega

theorem roundHalfEven_eq_zero {F : Type} [LinearOrderedField F] [FloorRing F]
    (y : F) (h0 : 0 ≤ y) (h1 : y ≤ 1 / 2) : roundHalfEven y = 0 := by
  have hfl : Int.floor y = 0 := by
    rw [Int.floor_eq_iff]
    constructor
    · simpa using h0
    · have : (1 : F) / 2 < 1 := by norm_num
      simp only [Int.cast_zero, zero_add]
      exact lt_of_le_of_lt h1 this
  unfold roundHalfEven
  rw [hfl]
  simp only [Int.cast_zero, sub_zero]
  split_ifs with ha hb hc
  · rfl
  · exact absurd hb (not_lt.mpr h1)
  · rfl
  · exact absurd (by decide : (0 : Int) % 2 = 0) hc

theorem two_zpow_pos {F : Type} [LinearOrderedField F]
    (e : Int) : (0 : F) < 2 ^ e := zpow_pos (by norm_num) e

theorem ulpExp_ge {F : Type} [LinearOrderedField F] [FloorRing F]
    (x : F) : -1074 ≤ ulpExp x := le_max_left _ _

theorem ulpExp_le {F : Type} [LinearOrderedField F] [FloorRing F]
    (x : F) (k : Int) (hk : -1074 ≤ k) (hx : 0 < x) (hlt : x < 2 ^ (53 + k)) :
    ulpExp x ≤ k := by
  have hlt2 : x < ((2 : Nat) : F) ^ (53 + k) := by simpa using hlt
  have := (Int.lt_zpow_iff_log_lt (by norm_num : 1 < 2) hx).mp hlt2
  unfold ulpExp
  exact max_le hk (by omega)

theorem roundPos_nonneg {F : Type} [LinearOrderedField F] [FloorRing F]
    (x : F) (hx : 0 ≤ x) : 0 ≤ roundPos x := by
  unfold roundPos
  have hy : (0 : F) ≤ x / 2 ^ ulpExp x := div_nonneg hx (two_zpow_pos _).le
  have := le_roundHalfEven (x / 2 ^ ulpExp x) 0 (by simpa using hy)
  exact mul_nonneg (by exact_mod_cast this) (two_zpow_pos _).le

theorem roundPos_zero {F : Type} [LinearOrderedField F] [FloorRing F] : roundPos (0 : F) = 0 := by
  unfold roundPos
  rw [zero_div]
  have := roundHalfEven_intCast (F := F) 0
  simp only [Int.cast_zero] at this
  rw [this]
  simp

/-- A `float64` value `m * 2 ^ k` is an integer multiple of every `2 ^ e` with `e ≤ k`. -/
theorem scaled_int {F : Type} [LinearOrderedField F] (m : Nat) (k e : Int) (hek : e ≤ k) :
    ((m : F) * 2 ^ k) / 2 ^ e = (((m : Int) * 2 ^ (k - e).toNat : Int) : F) := by
  have h2 : (2 : F) ≠ 0 := by norm_num
  have hk : k = e + ((k - e).toNat : Int) := by omega
  rw [mul_div_assoc, ← zpow_sub₀ h2]
  push_cast
  congr 1
  rw [← zpow_natCast]
  congr 1
  omega

/-- The rounding does not step over a `float64` value `m * 2 ^ k` above. -/
theorem roundPos_le {F : Type} [LinearOrderedField F] [FloorRing F]
    (x : F) (m : Nat) (k : Int) (hm : m < 2 ^ 53) (hk : -1074 ≤ k)
    (hx : 0 ≤ x) (hle : x ≤ (m : F) * 2 ^ k) : roundPos x ≤ (m : F) * 2 ^ k := by
  rcases hx.eq_or_lt with h0 | hpos
  · rw [← h0, roundPos_zero]
    exact mul_nonneg (Nat.cast_nonneg _) (two_zpow_pos _).le
  · have hmF : (m : F) < 2 ^ 53 := by exact_mod_cast hm
    have hlt : x < 2 ^ (53 + k) := by
      rw [zpow_add₀ (by norm_num : (2 : F) ≠ 0)]
      calc x ≤ (m : F) * 2 ^ k := hle
        _ < 2 ^ 53 * 2 ^ k := by
          apply mul_lt_mul_of_pos_right _ (two_zpow_pos k)
          exact_mod_cast hmF
        _ = 2 ^ (53 : Int) * 2 ^ k := by norm_cast
    have he := ulpExp_le x k hk hpos hlt
    have hpe := two_zpow_pos (F := F) (ulpExp x)
    have hy : x / 2 ^ ulpExp x ≤ (((m : Int) * 2 ^ (k - ulpExp x).toNat : Int) : F) := by
      rw [← scaled_int m k (ulpExp x) he]
      exact div_le_div_of_nonneg_right hle hpe.le
    have hr := roundHalfEven_le _ _ hy
    unfold roundPos
    have hr2 : (roundHalfEven (x / 2 ^ ulpExp x) : F)
        ≤ (((m : Int) * 2 ^ (k - ulpExp x).toNat : Int) : F) := by exact_mod_cast hr
    calc (roundHalfEven (x / 2 ^ ulpExp x) : F) * 2 ^ ulpExp x
        ≤ (((m : Int) * 2 ^ (k - ulpExp x).toNat : Int) : F) * 2 ^ ulpExp x :=
          mul_le_mul_of_nonneg_right hr2 hpe.le
      _ = (m : F) * 2 ^ k := by
          rw [← scaled_int m k (ulpExp x) he, div_mul_cancel₀ _ hpe.ne']

/-- The rounding does not step over a `float64` value `m * 2 ^ k` below. -/
theorem le_roundPos {F : Type} [LinearOrderedField F] [FloorRing F]
    (x : F) (m : Nat) (k : Int) (hm : m < 2 ^ 53) (hk : -1074 ≤ k)
    (hle : (m : F) * 2 ^ k ≤ x) : (m : F) * 2 ^ k ≤ roundPos x := by
  have hr0 : (0 : F) ≤ (m : F) * 2 ^ k := mul_nonneg (Nat.cast_nonneg _) (two_zpow_pos _).le
  have hx : 0 ≤ x := le_trans hr0 hle
  rcases hx.eq_or_lt with h0 | hpos
  · rw [← h0, roundPos_zero]
    rw [← h0] at hle
    exact hle
  · have hpe := two_zpow_pos (F := F) (ulpExp x)
    by_cases he : ulpExp x ≤ k
    · have hy : (((m : Int) * 2 ^ (k - ulpExp x).toNat : Int) : F) ≤ x / 2 ^ ulpExp x := by
        rw [← scaled_int m k (ulpExp x) he]
        exact div_le_div_of_nonneg_right hle hpe.le
      have hr := le_roundHalfEven _ _ hy
      have hr2 : (((m : Int) * 2 ^ (k - ulpExp x).toNat : Int) : F)
          ≤ (roundHalfEven (x / 2 ^ ulpExp x) : F) := by exact_mod_cast hr
      unfold roundPos
      calc (m : F) * 2 ^ k
          = (((m : Int) * 2 ^ (k - ulpExp x).toNat : Int) : F) * 2 ^ ulpExp x := by
            rw [← scaled_int m k (ulpExp x) he, div_mul_cancel₀ _ hpe.ne']
        _ ≤ (roundHalfEven (x / 2 ^ ulpExp x) : F) * 2 ^ ulpExp x :=
            mul_le_mul_of_nonneg_right hr2 hpe.le
    · have hek : k < ulpExp x := not_le.mp he
      have hdef : ulpExp x = Int.log 2 x - 52 := by
        unfold ulpExp at hek ⊢
        rcases max_cases (-1074 : Int) (Int.log 2 x - 52) with ⟨h1, _⟩ | ⟨h1, _⟩
        · rw [h1] at hek; omega
        · exact h1
      have hlog : (2 : F) ^ Int.log 2 x ≤ x := by
        have := Int.zpow_log_le_self (R := F) (b := 2) (r := x) (by norm_num) hpos
        simpa using this
      have h2 : (2 : F) ≠ 0 := by norm_num
      have hy : (((2 ^ 52 : Int)) : F) ≤ x / 2 ^ ulpExp x := by
        rw [le_div_iff₀ hpe]
        have : ((2 ^ 52 : Int) : F) * 2 ^ ulpExp x = 2 ^ Int.log 2 x := by
          have h52 : ((2 ^ 52 : Int) : F) = (2 : F) ^ (52 : Int) := by norm_cast
          rw [h52, ← zpow_add₀ h2, hdef]
          congr 1
          omega
        rw [this]
        exact hlog
      have hr := le_roundHalfEven _ _ hy
      have hr2 : ((2 ^ 52 : Int) : F) ≤ (roundHalfEven (x / 2 ^ ulpExp x) : F) := by
        exact_mod_cast hr
      have hmF : (m : F) ≤ 2 ^ (53 : Int) := by
        have : (m : F) < 2 ^ 53 := by exact_mod_cast hm
        exact_mod_cast this.le
      unfold roundPos
      calc (m : F) * 2 ^ k ≤ 2 ^ (53 : Int) * 2 ^ k :=
            mul_le_mul_of_nonneg_right hmF (two_zpow_pos _).le
        _ = 2 ^ (53 + k) := (zpow_add₀ h2 _ _).symm
        _ ≤ 2 ^ (52 + ulpExp x) := zpow_le_zpow_right₀ (by norm_num) (by omega)
        _ = ((2 ^ 52 : Int) : F) * 2 ^ ulpExp x := by
            rw [zpow_add₀ h2]
            norm_cast
        _ ≤ (roundHalfEven (x / 2 ^ ulpExp x) : F) * 2 ^ ulpExp x :=
            mul_le_mul_of_nonneg_right hr2 hpe.le

/-- Every `float64` value `m * 2 ^ k` is its own rounding. -/
theorem roundPos_representable {F : Type} [LinearOrderedField F] [FloorRing F]
    (m : Nat) (k : Int) (hm : m < 2 ^ 53) (hk : -1074 ≤ k) :
    roundPos ((m : F) * 2 ^ k) = (m : F) * 2 ^ k :=
  le_antisymm
    (roundPos_le _ m k hm hk (mul_nonneg (Nat.cast_nonneg _) (two_zpow_pos _).le) le_rfl)
    (le_roundPos _ m k hm hk le_rfl)

/-- Underflow: up to half the least positive `float64`, 2^-1074, the rounding is 0. -/
theorem roundPos_underflow {F : Type} [LinearOrderedField F] [FloorRing F]
    (x : F) (hx : 0 ≤ x) (hle : x ≤ 2 ^ (-1075 : Int)) :
    roundPos x = 0 := by
  rcases hx.eq_or_lt with h0 | hpos
  · rw [← h0, roundPos_zero]
  · have h2 : (2 : F) ≠ 0 := by norm_num
    have hlt : x < 2 ^ (53 + (-1074 : Int)) :=
      lt_of_le_of_lt hle (zpow_lt_zpow_right₀ (by norm_num) (by norm_num))
    have he : ulpExp x = -1074 :=
      le_antisymm (ulpExp_le x (-1074) le_rfl hpos hlt) (ulpExp_ge x)
    have hy : x / 2 ^ ulpExp x ≤ 1 / 2 := by
      rw [he, div_le_iff₀ (two_zpow_pos _)]
      have : (1 : F) / 2 * 2 ^ (-1074 : Int) = 2 ^ (-1075 : Int) := by
        rw [show (1 : F) / 2 = 2 ^ (-1 : Int) by norm_num, ← zpow_add₀ h2]
        norm_num
      rw [this]
      exact hle
    unfold roundPos
    rw [roundHalfEven_eq_zero _ (div_nonneg hx (two_zpow_pos _).le) hy]
    simp

theorem roundF64_zero {F : Type} [LinearOrderedField F] [FloorRing F] : roundF64 (0 : F) = 0 := by
  unfold roundF64
  rw [if_pos le_rfl, roundPos_zero]

/-- The rounding is symmetric about 0. -/
theorem roundF64_neg {F : Type} [LinearOrderedField F] [FloorRing F]
    (x : F) : roundF64 (-x) = -roundF64 x := by
  rcases lt_trichotomy x 0 with h | h | h
  · unfold roundF64
    rw [if_pos (by linarith), if_neg (by linarith)]
    simp
  · subst h
    simp [roundF64_zero]
  · unfold roundF64
    rw [if_neg (by linarith), if_pos h.le]
    simp

theorem roundF64_nonneg {F : Type} [LinearOrderedField F] [FloorRing F]
    (x : F) (hx : 0 ≤ x) : 0 ≤ roundF64 x := by
  unfold roundF64
  rw [if_pos hx]
  exact roundPos_nonneg x hx

theorem roundF64_nonpos {F : Type} [LinearOrderedField F] [FloorRing F]
    (x : F) (hx : x ≤ 0) : roundF64 x ≤ 0 := by
  have := roundF64_nonneg (-x) (by linarith)
  rw [roundF64_neg] at this
  linarith

theorem roundF64_le_natCast {F : Type} [LinearOrderedField F] [FloorRing F]
    (x : F) (n : Nat) (hn : n < 2 ^ 53) (hle : x ≤ (n : F)) :
    roundF64 x ≤ (n : F) := by
  by_cases hx : 0 ≤ x
  · unfold roundF64
    rw [if_pos hx]
    have := roundPos_le x n 0 hn (by norm_num) hx (by simpa using hle)
    simpa using this
  · exact le_trans (roundF64_nonpos x (not_le.mp hx).le) (Nat.cast_nonneg n)

theorem natCast_le_roundF64 {F : Type} [LinearOrderedField F] [FloorRing F]
    (x : F) (n : Nat) (hn : n < 2 ^ 53) (hle : (n : F) ≤ x) :
    (n : F) ≤ roundF64 x := by
  have hx : 0 ≤ x := le_trans (Nat.cast_nonneg n) hle
  unfold roundF64
  rw [if_pos hx]
  have := le_roundPos x n 0 hn (by norm_num) (by simpa using hle)
  simpa using this

theorem roundF64_natCast {F : Type} [LinearOrderedField F] [FloorRing F]
    (n : Nat) (hn : n < 2 ^ 53) : roundF64 (n : F) = n :=
  le_antisymm (roundF64_le_natCast _ n hn le_rfl) (natCast_le_roundF64 _ n hn le_rfl)

theorem roundF64_representable {F : Type} [LinearOrderedField F] [FloorRing F]
    (m : Nat) (k : Int) (hm : m < 2 ^ 53) (hk : -1074 ≤ k) :
    roundF64 ((m : F) * 2 ^ k) = (m : F) * 2 ^ k := by
  unfold roundF64
  rw [if_pos (mul_nonneg (Nat.cast_nonneg _) (two_zpow_pos _).le)]
  exact roundPos_representable m k hm hk

theorem roundF64_one {F : Type} [LinearOrderedField F] [FloorRing F] :
    roundF64 (1 : F) = 1 := by
  have := roundF64_natCast (F := F) 1 (by norm_num)
  simpa using this

theorem roundF64_3 : roundF64 (3 : ℚ) = 3 := by
  have := roundF64_natCast (F := ℚ) 3 (by norm_num)
  simpa using this

theorem roundF64_4 : roundF64 (4 : ℚ) = 4 := by
  have := roundF64_natCast (F := ℚ) 4 (by norm_num)
  simpa using this

theorem roundF64_9 : roundF64 (9 : ℚ) = 9 := by
  have := roundF64_natCast (F := ℚ) 9 (by norm_num)
  simpa using this

theorem roundF64_16 : roundF64 (16 : ℚ) = 16 := by
  have := roundF64_natCast (F := ℚ) 16 (by norm_num)
  simpa using this

theorem roundF64_25 : roundF64 (25 : ℚ) = 25 := by
  have := roundF64_natCast (F := ℚ) 25 (by norm_num)
  simpa using this

theorem roundF64_underflow {F : Type} [LinearOrderedField F] [FloorRing F] (x : F)
    (hx : 0 ≤ x) (hle : x ≤ 2 ^ (-1075 : Int)) : roundF64 x = 0 := by
  unfold roundF64
  rw [if_pos hx]
  exact roundPos_underflow x hx hle

/-- Half-way between two integers the even one is taken. -/
theorem roundHalfEven_tie {F : Type} [LinearOrderedField F] [FloorRing F] (n : Int) :
    roundHalfEven ((n : F) + 1 / 2) = if n % 2 = 0 then n else n + 1 := by
  have hfl : Int.floor ((n : F) + 1 / 2) = n := by
    rw [Int.floor_eq_iff]
    constructor <;> norm_num
  unfold roundHalfEven
  rw [hfl]
  have h1 : ¬ ((n : F) + 1 / 2 - (n : F) < 1 / 2) := by norm_num
  have h2 : ¬ ((1 : F) / 2 < (n : F) + 1 / 2 - (n : F)) := by norm_num
  rw [if_neg h1, if_neg h2]

/-- In the binade `[2 ^ a, 2 ^ (a + 1))` of normal values the last mantissa bit has
exponent `a - 52`. -/
theorem ulpExp_eq {F : Type} [LinearOrderedField F] [FloorRing F] (x : F) (a : Int)
    (ha : -1022 ≤ a) (h1 : 2 ^ a ≤ x) (h2 : x < 2 ^ (a + 1)) : ulpExp x = a - 52 := by
  have hx : 0 < x := lt_of_lt_of_le (two_zpow_pos a) h1
  have h1n : ((2 : Nat) : F) ^ a ≤ x := by simpa using h1
  have h2n : x < ((2 : Nat) : F) ^ (a + 1) := by simpa using h2
  have hl1 := (Int.zpow_le_iff_le_log (by norm_num : 1 < 2) hx).mp h1n
  have hl2 := (Int.lt_zpow_iff_log_lt (by norm_num : 1 < 2) hx).mp h2n
  unfold ulpExp
  rw [max_eq_right (by omega)]
  omega

/-! ## The `float64` operations -/

theorem fsub_self {F : Type} [LinearOrderedField F] [FloorRing F] (a : F) : fsub a a = 0 := by
  unfold fsub
  rw [sub_self, roundF64_zero]

theorem fsub_swap {F : Type} [LinearOrderedField F] [FloorRing F] (a b : F) :
    fsub a b = -fsub b a := by
  unfold fsub
  rw [← roundF64_neg, neg_sub]

theorem powTwo_zero {F : Type} [LinearOrderedField F] [FloorRing F] : powTwo (0 : F) = 0 := by
  unfold powTwo
  simp [roundF64_zero]

theorem powTwo_neg {F : Type} [LinearOrderedField F] [FloorRing F] (x : F) :
    powTwo (-x) = powTwo x := by
  unfold powTwo
  rw [neg_sq]

theorem powTwo_nonneg {F : Type} [LinearOrderedField F] [FloorRing F] (x : F) :
    0 ≤ powTwo x :=
  roundF64_nonneg _ (sq_nonneg x)

theorem fadd_zero_zero {F : Type} [LinearOrderedField F] [FloorRing F] :
    fadd (0 : F) 0 = 0 := by
  unfold fadd
  rw [add_zero, roundF64_zero]

theorem fadd_nonneg {F : Type} [LinearOrderedField F] [FloorRing F] (a b : F)
    (ha : 0 ≤ a) (hb : 0 ≤ b) : 0 ≤ fadd a b :=
  roundF64_nonneg _ (add_nonneg ha hb)

/-! ## Evaluation of `sqrtQ` -/

theorem natSqrtFrom_sq (m : Nat) : ∀ r, m ≤ r → natSqrtFrom (m * m) r = m
  | 0, h => by simp [natSqrtFrom]; omega
  | r + 1, h => by
    unfold natSqrtFrom
    split
    · next hle =>
      have : r + 1 ≤ m := by
        by_contra hc
        have : m * m < (r + 1) * (r + 1) := Nat.mul_self_lt_mul_self (by omega)
        omega
      omega
    · next hle =>
      have : m ≤ r := by
        by_contra hc
        have : m = r + 1 := by omega
        subst this
        exact hle le_rfl
      exact natSqrtFrom_sq m r this

theorem sqrtQ_natCast_sq (n : Nat) : sqrtQ ((n : ℚ) * n) = n := by
  have h : ((n : ℚ) * n) = ((n * n : Nat) : ℚ) := by push_cast; ring
  rw [h]
  simp only [sqrtQ, Rat.num_natCast, Rat.den_natCast, Int.toNat_ofNat]
  rw [natSqrtFrom_sq n (n * n) (Nat.le_mul_self n)]
  have : natSqrtFrom 1 1 = 1 := by decide
  rw [this]; simp

theorem sqrtQ_25 : sqrtQ 25 = 5 := by
  have := sqrtQ_natCast_sq 5
  norm_num at this
  exact this

theorem sqrtQ_1 : sqrtQ 1 = 1 := by
  have := sqrtQ_natCast_sq 1
  norm_num at this
  exact this

theorem natSqrtFrom_pos (n : Nat) (hn : 1 ≤ n) : ∀ r, 1 ≤ r → 1 ≤ natSqrtFrom n r
  | 0, h => absurd h (by decide)
  | r + 1, _ => by
    unfold natSqrtFrom
    split
    · omega
    · next hle =>
      have hr : 1 ≤ r := by
        by_contra hc
        have : r = 0 := by omega
        subst this
        exact hle (by simpa using hn)
      exact natSqrtFrom_pos n hn r hr

theorem sqrtQ_nonneg (x : ℚ) : 0 ≤ sqrtQ x := by
  unfold sqrtQ
  exact div_nonneg (Nat.cast_nonneg _) (Nat.cast_nonneg _)

theorem sqrtQ_eq_zero_iff (x : ℚ) (hx : 0 ≤ x) : sqrtQ x = 0 ↔ x = 0 := by
  have hden : (natSqrtFrom x.den x.den : ℚ) ≠ 0 := by
    have := natSqrtFrom_pos x.den x.den_pos x.den x.den_pos
    exact Nat.cast_ne_zero.mpr (by omega)
  have hnum : 0 ≤ x.num := Rat.num_nonneg.mpr hx
  unfold sqrtQ
  rw [div_eq_zero_iff, or_iff_left hden, Nat.cast_eq_zero]
  constructor
  · intro h
    have hz : x.num.toNat = 0 := by
      by_contra hc
      have := natSqrtFrom_pos x.num.toNat (by omega) x.num.toNat (by omega)
      omega
    have : x.num = 0 := by omega
    exact Rat.num_eq_zero.mp this
  · intro h
    subst h
    rfl

/-! ## The stable sort -/

theorem insertStable_perm {α : Type} (less : α → α → Bool) (x : α) :
    ∀ l : List α, (insertStable less x l).Perm (x :: l)
  | [] => List.Perm.refl _
  | y :: ys => by
    unfold insertStable
    split
    · exact ((insertStable_perm less x ys).cons y).trans (List.Perm.swap x y ys)
    · exact List.Perm.refl _

theorem sliceStable_perm {α : Type} (less : α → α → Bool) :
    ∀ l : List α, (sliceStable less l).Perm l
  | [] => List.Perm.refl _
  | x :: xs => by
    unfold sliceStable
    exact (insertStable_perm less x _).trans ((sliceStable_perm less xs).cons x)

theorem sliceStable_length {α : Type} (less : α → α → Bool) (l : List α) :
    (sliceStable less l).length = l.length :=
  (sliceStable_perm less l).length_eq

/-- Inserting into a list sorted by distance keeps it sorted by distance. -/
theorem insertStable_sorted {F : Type} [LinearOrderedField F] (x : datum F) :
    ∀ l : List (datum F), l.Pairwise (fun a b => a.distance ≤ b.distance) →
      (insertStable lessDistance x l).Pairwise (fun a b => a.distance ≤ b.distance)
  | [], _ => by simp [insertStable]
  | y :: ys, h => by
    obtain ⟨hy, hys⟩ := List.pairwise_cons.mp h
    unfold insertStable
    by_cases hlt : y.distance < x.distance
    · have hless : lessDistance y x = true := by simp [lessDistance, hlt]
      rw [if_pos hless]
      refine List.pairwise_cons.mpr ⟨?_, insertStable_sorted x ys hys⟩
      intro a ha
      rcases List.mem_cons.mp ((insertStable_perm _ x ys).mem_iff.mp ha) with rfl | ha
      · exact hlt.le
      · exact hy a ha
    · have hless : ¬ lessDistance y x = true := by simp [lessDistance, hlt]
      rw [if_neg hless]
      have hxy : x.distance ≤ y.distance := not_lt.mp hlt
      refine List.pairwise_cons.mpr ⟨?_, h⟩
      intro a ha
      rcases List.mem_cons.mp ha with rfl | ha
      · exact hxy
      · exact hxy.trans (hy a ha)

/-- The sorted slice is in non-decreasing order of distance. -/
theorem sliceStable_sorted {F : Type} [LinearOrderedField F] :
    ∀ l : List (datum F),
      (sliceStable lessDistance l).Pairwise (fun a b => a.distance ≤ b.distance)
  | [] => List.Pairwise.nil
  | x :: xs => by
    unfold sliceStable
    exact insertStable_sorted x _ (sliceStable_sorted xs)

/-- An insertion does not reorder the records of one distance class. -/
theorem insertStable_filter {F : Type} [LinearOrderedField F] (x : datum F) (c : F) :
    ∀ l : List (datum F),
      (insertStable lessDistance x l).filter (fun r => decide (r.distance = c))
        = (x :: l).filter (fun r => decide (r.distance = c))
  | [] => rfl
  | y :: ys => by
    unfold insertStable
    by_cases hlt : y.distance < x.distance
    · have hless : lessDistance y x = true := by simp [lessDistance, hlt]
      rw [if_pos hless, List.filter_cons, insertStable_filter x c ys]
      by_cases hx : x.distance = c
      · have hy : ¬ y.distance = c := fun h => by rw [h, hx] at hlt; exact lt_irrefl _ hlt
        simp [List.filter_cons, hx, hy]
      · simp [List.filter_cons, hx]
    · have hless : ¬ lessDistance y x = true := by simp [lessDistance, hlt]
      rw [if_neg hless]

/-- Stability: the sort keeps the records of every distance class in their
original relative order. -/
theorem sliceStable_filter {F : Type} [LinearOrderedField F] (c : F) :
    ∀ l : List (datum F),
      (sliceStable lessDistance l).filter (fun r => decide (r.distance = c))
        = l.filter (fun r => decide (r.distance = c))
  | [] => rfl
  | x :: xs => by
    unfold sliceStable
    rw [insertStable_filter, List.filter_cons, List.filter_cons, sliceStable_filter c xs]

/-! ## The loop of `getNeighbors` -/

theorem getNeighborsLoop_upto {F : Type} [LinearOrderedField F] [FloorRing F] (sqrt : F → F)
    (d : datum F) (train : List (datum F)) :
    ∀ j, j ≤ train.length →
      (List.range j).foldl (getNeighborsBody sqrt)
          ⟨d, train, List.replicate train.length datum.zero⟩
        = ⟨d, train, (train.take j).map (fun v => euclideanDistance sqrt v d)
            ++ List.replicate (train.length - j) datum.zero⟩
  | 0, _ => by simp
  | j + 1, hj => by
    have hlt : j < train.length := hj
    rw [List.range_succ, List.foldl_append, getNeighborsLoop_upto sqrt d train j (by omega)]
    simp only [List.foldl_cons, List.foldl_nil, getNeighborsBody]
    rw [List.getElem?_eq_getElem hlt]
    simp only [NeighborsMem.mk.injEq, true_and]
    apply List.ext_getElem?
    intro n
    simp only [List.getElem?_set, List.getElem?_append, List.length_map, List.length_take,
      List.length_append, List.length_replicate, List.getElem?_map, List.getElem?_take,
      List.getElem?_replicate]
    have h1 : min j train.length = j := min_eq_left (by omega)
    have h2 : min (j + 1) train.length = j + 1 := min_eq_left hj
    rw [h1, h2]
    by_cases hjn : j = n
    · subst hjn
      have h3 : j < j + (train.length - j) := by omega
      simp [h3, List.getElem?_eq_getElem hlt]
    · rw [if_neg hjn]
      by_cases hn : n < j
      · have h4 : n < j + 1 := by omega
        simp [hn, h4]
      · have h5 : ¬ n < j + 1 := by omega
        rw [if_neg hn, if_neg h5]
        by_cases h6 : n < train.length
        · have h7 : n - j < train.length - j := by omega
          have h8 : n - (j + 1) < train.length - (j + 1) := by omega
          rw [if_pos h7, if_pos h8]
        · have h7 : ¬ n - j < train.length - j := by omega
          have h8 : ¬ n - (j + 1) < train.length - (j + 1) := by omega
          rw [if_neg h7, if_neg h8]

theorem getNeighborsLoop_eq {F : Type} [LinearOrderedField F] [FloorRing F] (sqrt : F → F)
    (d : datum F) (train : List (datum F)) :
    getNeighborsLoop sqrt d train
      = ⟨d, train, train.map (fun v => euclideanDistance sqrt v d)⟩ := by
  unfold getNeighborsLoop
  rw [getNeighborsLoop_upto sqrt d train train.length le_rfl]
  simp

theorem getNeighborsRun_eq {F : Type} [LinearOrderedField F] [FloorRing F] (sqrt : F → F)
    (d : datum F) (train : List (datum F)) :
    getNeighborsRun sqrt d train
      = ⟨d, train, sliceStable lessDistance (train.map (fun v => euclideanDistance sqrt v d))⟩ := by
  unfold getNeighborsRun
  rw [getNeighborsLoop_eq]

theorem getNeighborsRun_length {F : Type} [LinearOrderedField F] [FloorRing F] (sqrt : F → F)
    (d : datum F) (train : List (datum F)) :
    (getNeighborsRun sqrt d train).distances.length = train.length := by
  rw [getNeighborsRun_eq]
  simp [sliceStable_length]

theorem getNeighbors_eq {F : Type} [LinearOrderedField F] [FloorRing F] (sqrt : F → F)
    (d : datum F) (train : List (datum F)) (k : Int)
    (h0 : 0 ≤ k) (hk : k ≤ (train.length : Int)) :
    getNeighbors sqrt d train k
      = some ((sliceStable lessDistance (train.map (fun v => euclideanDistance sqrt v d))).drop
          (train.length - k.toNat)) := by
  have hlen := getNeighborsRun_length sqrt d train
  unfold getNeighbors
  simp only [hlen]
  rw [if_pos (by omega)]
  rw [getNeighborsRun_eq]
  congr 2
  omega

/-- With k = 0 the slice expression is `distances[len(distances):]`, which is in
range and empty. -/
theorem getNeighbors_k0 {F : Type} [LinearOrderedField F] [FloorRing F] (sqrt : F → F)
    (d : datum F) (train : List (datum F)) :
    getNeighbors sqrt d train 0 = some [] := by
  rw [getNeighbors_eq sqrt d train 0 le_rfl (Int.ofNat_nonneg _)]
  simp [sliceStable_length]

/-- With k > len(train) the low bound of the slice expression is negative. -/
theorem getNeighbors_none_of_lt {F : Type} [LinearOrderedField F] [FloorRing F] (sqrt : F → F)
    (d : datum F) (train : List (datum F)) (k : Int) (hk : (train.length : Int) < k) :
    getNeighbors sqrt d train k = none := by
  have hlen := getNeighborsRun_length sqrt d train
  unfold getNeighbors
  simp only [hlen]
  rw [if_neg (by omega)]

/-! ## The vote tally of `getClass` -/

theorem voteFor_inv (votes : List (Int × Nat)) (labels : List Int) (l : Int)
    (h1 : ∀ e ∈ votes, e.2 = labels.count e.1 ∧ 0 < e.2)
    (h2 : ∀ l', 0 < labels.count l' → (l', labels.count l') ∈ votes) :
    (∀ e ∈ voteFor votes l, e.2 = (labels ++ [l]).count e.1 ∧ 0 < e.2)
      ∧ (∀ l', 0 < (labels ++ [l]).count l' →
          (l', (labels ++ [l]).count l') ∈ voteFor votes l) := by
  unfold voteFor
  split
  · next hany =>
    obtain ⟨e0, he0, hk0⟩ := List.any_eq_true.mp hany
    have hk0 : e0.1 = l := by simpa using hk0
    constructor
    · intro e he
      obtain ⟨e1, he1, rfl⟩ := List.mem_map.mp he
      obtain ⟨hc, hp⟩ := h1 e1 he1
      by_cases hk : e1.1 = l
      · simp [hk, List.count_append, hc]
      · have hk2 : ¬ l = e1.1 := fun h => hk h.symm
        have hcnt : (labels ++ [l]).count e1.1 = labels.count e1.1 := by
          simp [List.count_append, List.count_singleton, hk2]
        rw [if_neg hk, hcnt]
        exact ⟨hc, hp⟩
    · intro l' hl'
      by_cases hk : l' = l
      · subst hk
        refine List.mem_map.mpr ⟨e0, he0, ?_⟩
        have := (h1 e0 he0).1
        rw [hk0] at this
        have he : e0 = (l', labels.count l') := Prod.ext hk0 this
        simp [he, List.count_append]
      · have hk2 : ¬ l = l' := fun h => hk h.symm
        have hc : (labels ++ [l]).count l' = labels.count l' := by
          simp [List.count_append, List.count_singleton, hk2]
        rw [hc] at hl' ⊢
        refine List.mem_map.mpr ⟨_, h2 l' hl', ?_⟩
        simp [hk]
  · next hany =>
    have hno : ∀ e ∈ votes, e.1 ≠ l := by
      intro e he hk
      exact hany (List.any_eq_true.mpr ⟨e, he, by simpa using hk⟩)
    have hzero : labels.count l = 0 := by
      by_contra hc
      exact hno _ (h2 l (Nat.pos_of_ne_zero hc)) rfl
    constructor
    · intro e he
      rcases List.mem_append.mp he with he | he
      · have hk2 : ¬ l = e.1 := fun h => hno e he h.symm
        have hcnt : (labels ++ [l]).count e.1 = labels.count e.1 := by
          simp [List.count_append, List.count_singleton, hk2]
        rw [hcnt]
        exact h1 e he
      · have : e = (l, 1) := by simpa using he
        subst this
        simp [List.count_append, hzero]
    · intro l' hl'
      by_cases hk : l' = l
      · subst hk
        simp [List.count_append, hzero]
      · have hk2 : ¬ l = l' := fun h => hk h.symm
        have hc : (labels ++ [l]).count l' = labels.count l' := by
          simp [List.count_append, List.count_singleton, hk2]
        rw [hc] at hl' ⊢
        exact List.mem_append.mpr (Or.inl (h2 l' hl'))

theorem tally_foldl_inv {F : Type} :
    ∀ (rest : List (datum F)) (votes : List (Int × Nat)) (labels : List Int),
      (∀ e ∈ votes, e.2 = labels.count e.1 ∧ 0 < e.2) →
      (∀ l', 0 < labels.count l' → (l', labels.count l') ∈ votes) →
      (∀ e ∈ rest.foldl (fun votes v => voteFor votes v.label) votes,
          e.2 = (labels ++ rest.map (fun v => v.label)).count e.1 ∧ 0 < e.2)
        ∧ (∀ l', 0 < (labels ++ rest.map (fun v => v.label)).count l' →
            (l', (labels ++ rest.map (fun v => v.label)).count l')
              ∈ rest.foldl (fun votes v => voteFor votes v.label) votes)
  | [], votes, labels, h1, h2 => by
    simp only [List.foldl_nil, List.map_nil, List.append_nil]
    exact ⟨h1, h2⟩
  | v :: rest, votes, labels, h1, h2 => by
    obtain ⟨h1n, h2n⟩ := voteFor_inv votes labels v.label h1 h2
    have := tally_foldl_inv rest (voteFor votes v.label) (labels ++ [v.label]) h1n h2n
    simpa [List.append_assoc] using this

/-- Every entry of the tally holds the number of occurrences of its key, which is
positive. -/
theorem tally_entry {F : Type} (neighbors : List (datum F)) (e : Int × Nat)
    (he : e ∈ tally neighbors) :
    e.2 = (neighbors.map (fun v => v.label)).count e.1 ∧ 0 < e.2 := by
  have := (tally_foldl_inv neighbors [] [] (by simp) (by simp)).1 e he
  simpa using this

/-- Every label that occurs among the neighbours has an entry in the tally. -/
theorem tally_complete {F : Type} (neighbors : List (datum F)) (l : Int)
    (hl : 0 < (neighbors.map (fun v => v.label)).count l) :
    (l, (neighbors.map (fun v => v.label)).count l) ∈ tally neighbors := by
  have := (tally_foldl_inv neighbors [] [] (by simp) (by simp)).2 l (by simpa using hl)
  simpa using this

/-- The scan for the maximum: the result is the start value or an entry, and its
count bounds the start value and every entry. -/
theorem pickStep_foldl :
    ∀ (entries : List (Int × Nat)) (acc : Nat × Int),
      (entries.foldl pickStep acc = acc
          ∨ ((entries.foldl pickStep acc).2, (entries.foldl pickStep acc).1) ∈ entries)
        ∧ acc.1 ≤ (entries.foldl pickStep acc).1
        ∧ ∀ e ∈ entries, e.2 ≤ (entries.foldl pickStep acc).1
  | [], acc => by simp
  | e :: es, acc => by
    obtain ⟨ha, hb, hc⟩ := pickStep_foldl es (pickStep acc e)
    simp only [List.foldl_cons]
    have hstep : acc.1 ≤ (pickStep acc e).1 ∧ e.2 ≤ (pickStep acc e).1
        ∧ (pickStep acc e = acc ∨ pickStep acc e = (e.2, e.1)) := by
      unfold pickStep
      split
      · exact ⟨by omega, le_rfl, Or.inr rfl⟩
      · exact ⟨le_rfl, by omega, Or.inl rfl⟩
    refine ⟨?_, by omega, ?_⟩
    · rcases ha with ha | ha
      · rcases hstep.2.2 with h | h
        · left; rw [ha, h]
        · right; rw [ha, h]; exact List.mem_cons_self _ _
      · right; exact List.mem_cons_of_mem _ ha
    · intro e1 he1
      rcases List.mem_cons.mp he1 with rfl | h
      · omega
      · exact hc e1 h

/-! ## The loop of `getAccuracy` -/

theorem accuracyStep_foldl {F : Type} :
    ∀ (arr : List (datum F)) (acc : Nat × List (datum F)),
      arr.foldl accuracyStep acc
        = (acc.1 + arr.countP (fun r => decide (r.label = r.prediction)),
            acc.2 ++ arr.filter (fun r => decide (r.label ≠ r.prediction)))
  | [], acc => by simp
  | v :: vs, acc => by
    rw [List.foldl_cons, accuracyStep_foldl vs]
    unfold accuracyStep
    by_cases h : v.label = v.prediction
    · simp [h, List.countP_cons]
      omega
    · simp [h, List.countP_cons]

theorem getAccuracy_eq {F : Type} [LinearOrderedField F] (arr : List (datum F)) :
    getAccuracy arr
      = (fdiv ((arr.countP (fun r => decide (r.label = r.prediction)) : Nat) : F)
            (arr.length : F),
          arr.filter (fun r => decide (r.label ≠ r.prediction))) := by
  unfold getAccuracy
  rw [accuracyStep_foldl]
  simp

/-- On a non-empty list the quotient of `getAccuracy` is finite. -/
theorem getAccuracy_finite {F : Type} [LinearOrderedField F] (arr : List (datum F))
    (hne : arr ≠ []) :
    (getAccuracy arr).1
      = Float64.finite
          (((arr.countP (fun r => decide (r.label = r.prediction)) : Nat) : F)
            / (arr.length : F)) := by
  have hlen : (arr.length : F) ≠ 0 :=
    Nat.cast_ne_zero.mpr (List.length_pos.mpr hne).ne'
  rw [getAccuracy_eq]
  simp only [fdiv]
  rw [if_neg hlen]

/-- On the empty list the quotient of `getAccuracy` is `0 / 0`, a NaN. -/
theorem getAccuracy_empty {F : Type} [LinearOrderedField F] :
    getAccuracy ([] : List (datum F)) = (Float64.nan, []) := by
  rw [getAccuracy_eq]
  simp [fdiv]

/-! ## `shuffle` and `splitData` -/

theorem swap_perm {α : Type} (arr : List α) (i j : Nat)
    (hi : i < arr.length) (hj : j < arr.length) :
    ∃ arr', swap arr i j = some arr' ∧ arr'.Perm arr := by
  classical
  unfold swap
  rw [List.getElem?_eq_getElem hi, List.getElem?_eq_getElem hj]
  refine ⟨_, rfl, ?_⟩
  rw [List.perm_iff_count]
  intro x
  have hj2 : j < (arr.set i arr[j]).length := by simpa using hj
  rw [List.count_set _ _ _ _ hj2, List.count_set _ _ _ _ hi]
  have hget : (arr.set i arr[j])[j] = arr[j] := by
    rw [List.getElem_set]
    split <;> rfl
  rw [hget]
  have hpos : (if (arr[i] == x) = true then 1 else 0) ≤ arr.count x := by
    split
    · next h =>
      have hx : arr[i] = x := by simpa using h
      have : 0 < arr.count x := List.count_pos_iff.mpr (hx ▸ List.getElem_mem hi)
      omega
    · omega
  omega

theorem shuffleFrom_perm {α : Type} (intn : Nat → Nat) (hintn : ∀ i, intn i < i + 1) :
    ∀ (i : Nat) (arr : List α), (i = 0 ∨ i < arr.length) →
      ∃ arr', shuffleFrom intn i arr = some arr' ∧ arr'.Perm arr
  | 0, arr, _ => ⟨arr, rfl, List.Perm.refl _⟩
  | i + 1, arr, h => by
    have hi : i + 1 < arr.length := by omega
    have hj : intn (i + 1) < arr.length := by
      have := hintn (i + 1)
      omega
    obtain ⟨arr1, h1, p1⟩ := swap_perm arr (i + 1) (intn (i + 1)) hi hj
    have hl : i < arr1.length := by rw [p1.length_eq]; omega
    obtain ⟨arr2, h2, p2⟩ := shuffleFrom_perm intn hintn i arr1 (Or.inr hl)
    refine ⟨arr2, ?_, p2.trans p1⟩
    unfold shuffleFrom
    rw [h1]
    exact h2

theorem shuffle_perm {α : Type} (intn : Nat → Nat) (hintn : ∀ i, intn i < i + 1)
    (arr : List α) : ∃ arr', shuffle intn arr = some arr' ∧ arr'.Perm arr := by
  unfold shuffle
  apply shuffleFrom_perm intn hintn
  omega

theorem toInt_of_nonneg {F : Type} [LinearOrderedField F] [FloorRing F] (x : F)
    (hx : 0 ≤ x) : toInt x = ((Nat.floor x : Nat) : Int) := by
  unfold toInt
  rw [if_pos hx]
  exact (Int.natCast_floor_eq_floor hx).symm

/-- For a ratio in [0,1] the `float64` product with a length below 2^53 lies
between 0 and that length: both are `float64` values and the rounding does not
step over them. -/
theorem fmul_natCast_bounds {F : Type} [LinearOrderedField F] [FloorRing F]
    (ratio : F) (n : Nat) (hn : n < 2 ^ 53) (h0 : 0 ≤ ratio) (h1 : ratio ≤ 1) :
    0 ≤ fmul ratio (n : F) ∧ fmul ratio (n : F) ≤ (n : F) := by
  have hlen : (0 : F) ≤ (n : F) := Nat.cast_nonneg _
  have hle : ratio * (n : F) ≤ (n : F) := by
    calc ratio * (n : F) ≤ 1 * (n : F) := mul_le_mul_of_nonneg_right h1 hlen
      _ = (n : F) := one_mul _
  exact ⟨roundF64_nonneg _ (mul_nonneg h0 hlen), roundF64_le_natCast _ n hn hle⟩

theorem splitData_eq {F : Type} [LinearOrderedField F] [FloorRing F] {α : Type}
    (arr : List α) (ratio : F) (h0 : 0 ≤ ratio) (h1 : ratio ≤ 1)
    (hlen : arr.length < 2 ^ 53) :
    splitData arr ratio
      = some (arr.take (Nat.floor (fmul ratio (arr.length : F))),
          arr.drop (Nat.floor (fmul ratio (arr.length : F)))) := by
  obtain ⟨hx, hle⟩ := fmul_natCast_bounds ratio arr.length hlen h0 h1
  have hfl : Nat.floor (fmul ratio (arr.length : F)) ≤ arr.length := by
    have := Nat.floor_mono hle
    rwa [Nat.floor_natCast] at this
  unfold splitData
  simp only [toInt_of_nonneg _ hx, Int.toNat_ofNat]
  rw [if_pos ⟨by omega, by omega⟩]

/-- The conversion `int(x)` is non-negative exactly above -1. -/
theorem toInt_nonneg_iff {F : Type} [LinearOrderedField F] [FloorRing F] (x : F) :
    0 ≤ toInt x ↔ -1 < x := by
  unfold toInt
  split
  · next hx =>
    constructor
    · intro _
      exact lt_of_lt_of_le (by norm_num) hx
    · intro _
      exact Int.floor_nonneg.mpr hx
  · next hx =>
    have h : (0 : Int) ≤ Int.ceil x ↔ (-1 : Int) < Int.ceil x := by omega
    rw [h, Int.lt_ceil]
    norm_num

/-- The conversion `int(x)` is at most n exactly below n + 1. -/
theorem toInt_le_iff {F : Type} [LinearOrderedField F] [FloorRing F] (x : F) (n : Nat) :
    toInt x ≤ (n : Int) ↔ x < (n : F) + 1 := by
  unfold toInt
  split
  · next hx =>
    have h : Int.floor x ≤ (n : Int) ↔ Int.floor x < (n : Int) + 1 := by omega
    rw [h, Int.floor_lt]
    norm_num
  · next hx =>
    have hx0 : x < 0 := not_le.mp hx
    have hn : (0 : F) ≤ (n : F) := Nat.cast_nonneg n
    constructor
    · intro _
      linarith
    · intro _
      rw [Int.ceil_le]
      have : x ≤ (n : F) := by linarith
      simpa using this

/-- The slice expressions of `splitData` panic exactly when the `float64` product
of `ratio` and `len(arr)` is at most -1 or at least `len(arr) + 1`. -/
theorem splitData_eq_none_iff {F : Type} [LinearOrderedField F] [FloorRing F] {α : Type}
    (arr : List α) (ratio : F) :
    splitData arr ratio = none
      ↔ fmul ratio (arr.length : F) ≤ -1 ∨ (arr.length : F) + 1 ≤ fmul ratio (arr.length : F) := by
  have ha := toInt_nonneg_iff (fmul ratio (arr.length : F))
  have hb := toInt_le_iff (fmul ratio (arr.length : F)) arr.length
  unfold splitData
  simp only
  split
  · next h =>
    simp only [reduceCtorEq, false_iff, not_or, not_le]
    exact ⟨ha.mp h.1, hb.mp h.2⟩
  · next h =>
    simp only [true_iff]
    by_contra hc
    rw [not_or, not_le, not_le] at hc
    exact h ⟨ha.mpr hc.1, hb.mpr hc.2⟩

/-- When the `float64` product lies strictly between -1 and 1 the split index is 0. -/
theorem splitData_train_empty {F : Type} [LinearOrderedField F] [FloorRing F] {α : Type}
    (arr : List α) (ratio : F)
    (h1 : -1 < fmul ratio (arr.length : F)) (h2 : fmul ratio (arr.length : F) < 1) :
    splitData arr ratio = some ([], arr) := by
  have ha : 0 ≤ toInt (fmul ratio (arr.length : F)) := (toInt_nonneg_iff _).mpr h1
  have hb : toInt (fmul ratio (arr.length : F)) ≤ ((0 : Nat) : Int) :=
    (toInt_le_iff _ 0).mpr (by simpa using h2)
  have hz : toInt (fmul ratio (arr.length : F)) = 0 := by omega
  unfold splitData
  simp only [hz]
  rw [if_pos ⟨le_rfl, Int.ofNat_nonneg _⟩]
  simp

/-- When the `float64` product lies in `[len(arr), len(arr) + 1)` the split index
is `len(arr)`. -/
theorem splitData_test_empty {F : Type} [LinearOrderedField F] [FloorRing F] {α : Type}
    (arr : List α) (ratio : F)
    (h1 : (arr.length : F) ≤ fmul ratio (arr.length : F))
    (h2 : fmul ratio (arr.length : F) < (arr.length : F) + 1) :
    splitData arr ratio = some (arr, []) := by
  have hx : 0 ≤ fmul ratio (arr.length : F) := le_trans (Nat.cast_nonneg _) h1
  have hz : toInt (fmul ratio (arr.length : F)) = (arr.length : Int) := by
    unfold toInt
    rw [if_pos hx, Int.floor_eq_iff]
    exact ⟨by simpa using h1, by simpa using h2⟩
  unfold splitData
  simp only [hz]
  rw [if_pos ⟨Int.ofNat_nonneg _, le_rfl⟩]
  simp

/-! ## Concrete runs -/

/-- A number `m * 2 ^ k` or its negative, with `m < 2 ^ 53` and `-1074 ≤ k`, is a
`float64` and is its own rounding. -/
theorem roundF64_eq_self {F : Type} [LinearOrderedField F] [FloorRing F] (x : F)
    (m : Nat) (k : Int) (hm : m < 2 ^ 53) (hk : -1074 ≤ k)
    (h : x = (m : F) * 2 ^ k ∨ x = -((m : F) * 2 ^ k)) : roundF64 x = x := by
  rcases h with h | h
  · rw [h, roundF64_representable m k hm hk]
  · rw [h, roundF64_neg, roundF64_representable m k hm hk]

theorem fmul_two_three : fmul (2 : ℚ) (([1, 2, 3].length : Nat) : ℚ) = 6 := by
  unfold fmul
  rw [roundF64_eq_self _ 6 0 (by norm_num) (by norm_num) (Or.inl (by norm_num))]
  norm_num

theorem fmul_neg_one_three : fmul (-1 : ℚ) (([1, 2, 3].length : Nat) : ℚ) = -3 := by
  unfold fmul
  rw [roundF64_eq_self _ 3 0 (by norm_num) (by norm_num) (Or.inr (by norm_num))]
  norm_num

theorem fmul_neg_quarter_three :
    fmul (-1 / 4 : ℚ) (([1, 2, 3].length : Nat) : ℚ) = -3 / 4 := by
  unfold fmul
  rw [roundF64_eq_self _ 3 (-2) (by norm_num) (by norm_num) (Or.inr (by norm_num))]
  norm_num

theorem fmul_five_quarters_three :
    fmul (5 / 4 : ℚ) (([1, 2, 3].length : Nat) : ℚ) = 15 / 4 := by
  unfold fmul
  rw [roundF64_eq_self _ 15 (-2) (by norm_num) (by norm_num) (Or.inl (by norm_num))]
  norm_num

/-- The `float64` nearest to 0.7 is 3152519739159347 / 2^52; its exact product
with 10 lies half-way between two `float64` values below and at 7, and the
`float64` product is 7. -/
theorem fmul_f07_ten :
    fmul (3152519739159347 / 2 ^ 52 : ℚ) (10 : ℚ) = 7 := by
  have hx : (3152519739159347 / 2 ^ 52 : ℚ) * 10 = 15762598695796735 / 2 ^ 51 := by norm_num
  have he : ulpExp (15762598695796735 / 2 ^ 51 : ℚ) = -50 := by
    have := ulpExp_eq (15762598695796735 / 2 ^ 51 : ℚ) 2 (by norm_num) (by norm_num) (by norm_num)
    rw [this]
    norm_num
  have hy : (15762598695796735 / 2 ^ 51 : ℚ) / 2 ^ (-50 : Int)
      = ((7881299347898367 : Int) : ℚ) + 1 / 2 := by
    rw [zpow_neg]
    norm_num
  unfold fmul
  rw [hx]
  unfold roundF64
  rw [if_pos (by norm_num)]
  unfold roundPos
  rw [he, hy, roundHalfEven_tie]
  rw [zpow_neg]
  norm_num

/-- The `float64` nearest to 1/3 is 6004799503160661 / 2^54; the `float64`
product of its negative with 3 is -1. -/
theorem fmul_neg_third_three :
    fmul (-(6004799503160661 / 2 ^ 54) : ℚ) (([1, 2, 3].length : Nat) : ℚ) = -1 := by
  have hx : (-(6004799503160661 / 2 ^ 54) : ℚ) * (([1, 2, 3].length : Nat) : ℚ)
      = -(18014398509481983 / 2 ^ 54) := by norm_num
  have he : ulpExp (18014398509481983 / 2 ^ 54 : ℚ) = -53 := by
    have := ulpExp_eq (18014398509481983 / 2 ^ 54 : ℚ) (-1) (by norm_num) (by norm_num)
      (by norm_num)
    rw [this]
    norm_num
  have hy : (18014398509481983 / 2 ^ 54 : ℚ) / 2 ^ (-53 : Int)
      = ((9007199254740991 : Int) : ℚ) + 1 / 2 := by
    rw [zpow_neg]
    norm_num
  unfold fmul
  rw [hx, roundF64_neg]
  unfold roundF64
  rw [if_pos (by norm_num)]
  unfold roundPos
  rw [he, hy, roundHalfEven_tie]
  rw [zpow_neg]
  norm_num

/-- Evaluation of `getNeighbors` at query (0,1), training records (0,0) and (3,5),
k = 1. -/
theorem getNeighbors_run_k1 :
    getNeighbors sqrtQ (⟨0, 1, 0, 0, 0⟩ : datum ℚ) [⟨0, 0, 1, 0, 0⟩, ⟨3, 5, 2, 0, 0⟩] 1
      = some [⟨3, 5, 2, 0, 5⟩] := by
  norm_num [getNeighbors, getNeighborsRun, getNeighborsLoop, getNeighborsBody,
      euclideanDistance, List.range, List.range.loop, sliceStable, insertStable, lessDistance,
      datum.zero, fsub, fadd, powTwo, roundF64_zero, roundF64_one, roundF64_neg, roundF64_3, roundF64_4, roundF64_9, roundF64_16, roundF64_25,
    sqrtQ_25, sqrtQ_1]

/-! ## Claims about `getNeighbors` -/

/-- C1 (code defect): at query (0,1) with training records (0,0) and (3,5) and
k = 1, `getNeighbors` returns the record (3,5) at distance 5 and leaves out the
record (0,0) at distance 1: the returned record is strictly farther than the
excluded one. -/
theorem getNeighbors_returns_farthest :
    getNeighbors sqrtQ (⟨0, 1, 0, 0, 0⟩ : datum ℚ) [⟨0, 0, 1, 0, 0⟩, ⟨3, 5, 2, 0, 0⟩] 1
        = some [⟨3, 5, 2, 0, 5⟩]
      ∧ (euclideanDistance sqrtQ (⟨0, 0, 1, 0, 0⟩ : datum ℚ) ⟨0, 1, 0, 0, 0⟩).distance = 1
      ∧ (euclideanDistance sqrtQ (⟨3, 5, 2, 0, 0⟩ : datum ℚ) ⟨0, 1, 0, 0, 0⟩).distance = 5 := by
  refine ⟨getNeighbors_run_k1, ?_, ?_⟩
  · norm_num [euclideanDistance, fsub, fadd, powTwo, roundF64_zero, roundF64_one, roundF64_neg,
      roundF64_3, roundF64_4, roundF64_9, roundF64_16, roundF64_25, sqrtQ_1]
  · norm_num [euclideanDistance, fsub, fadd, powTwo, roundF64_zero, roundF64_one, roundF64_neg,
      roundF64_3, roundF64_4, roundF64_9, roundF64_16, roundF64_25, sqrtQ_25]

/-- C2 (code defect): with training records (0,0) labelled 1 and (3,5) labelled 2,
query (0,1) and k = 1, the prediction is 2 for every traversal order of the tally,
although the training record nearest to the query, (0,0) at distance 1, is
labelled 1. -/
theorem predict_k1_farthest_label
    (order : List (Int × Nat) → List (Int × Nat)) (horder : ∀ m, (order m).Perm m) :
    predict sqrtQ order (⟨0, 1, 0, 0, 0⟩ : datum ℚ) [⟨0, 0, 1, 0, 0⟩, ⟨3, 5, 2, 0, 0⟩] 1
        = some 2
      ∧ ∀ t ∈ ([⟨0, 0, 1, 0, 0⟩, ⟨3, 5, 2, 0, 0⟩] : List (datum ℚ)),
          (∀ u ∈ ([⟨0, 0, 1, 0, 0⟩, ⟨3, 5, 2, 0, 0⟩] : List (datum ℚ)),
            (euclideanDistance sqrtQ t ⟨0, 1, 0, 0, 0⟩).distance
              ≤ (euclideanDistance sqrtQ u ⟨0, 1, 0, 0, 0⟩).distance) →
          t.label = 1 := by
  constructor
  · have hn := getNeighbors_run_k1
    have ht : tally ([⟨3, 5, 2, 0, 5⟩] : List (datum ℚ)) = [(2, 1)] := by
      simp [tally, voteFor]
    have ho : order [((2 : Int), 1)] = [(2, 1)] := List.perm_singleton.mp (horder _)
    simp [predict, hn, getClass, ht, ho, pickStep]
  · intro t ht hmin
    simp only [List.mem_cons, List.mem_singleton, List.not_mem_nil, or_false] at ht
    rcases ht with rfl | rfl
    · rfl
    · exfalso
      have h := hmin ⟨0, 0, 1, 0, 0⟩ (by simp)
      norm_num [euclideanDistance, fsub, fadd, powTwo, roundF64_zero, roundF64_one, roundF64_neg,
        roundF64_3, roundF64_4, roundF64_9, roundF64_16, roundF64_25, sqrtQ_25, sqrtQ_1] at h

/-- Witness for `predict_k1_farthest_label`: the tally traversed in reverse. -/
theorem predict_k1_farthest_label_witness :
    predict sqrtQ List.reverse (⟨0, 1, 0, 0, 0⟩ : datum ℚ)
        [⟨0, 0, 1, 0, 0⟩, ⟨3, 5, 2, 0, 0⟩] 1 = some 2 :=
  (predict_k1_farthest_label List.reverse (fun m => List.reverse_perm m)).1

/-- C9: for 0 ≤ k ≤ len(train), `getNeighbors` succeeds (the slice expression does
not panic) and the returned list has exactly k elements. -/
theorem getNeighbors_length {F : Type} [LinearOrderedField F] [FloorRing F] (sqrt : F → F)
    (d : datum F) (train : List (datum F)) (k : Int)
    (h0 : 0 ≤ k) (hk : k ≤ (train.length : Int)) :
    ∃ res, getNeighbors sqrt d train k = some res ∧ (res.length : Int) = k := by
  refine ⟨_, getNeighbors_eq sqrt d train k h0 hk, ?_⟩
  simp only [List.length_drop, sliceStable_length, List.length_map]
  omega

/-- Witness for `getNeighbors_length` at k = 1 and two training records. -/
theorem getNeighbors_length_witness :
    ∃ res, getNeighbors sqrtQ (⟨0, 1, 0, 0, 0⟩ : datum ℚ)
      [⟨0, 0, 1, 0, 0⟩, ⟨3, 5, 2, 0, 0⟩] 1 = some res ∧ (res.length : Int) = 1 :=
  getNeighbors_length sqrtQ ⟨0, 1, 0, 0, 0⟩ [⟨0, 0, 1, 0, 0⟩, ⟨3, 5, 2, 0, 0⟩] 1
    (by decide) (by decide)

/-- C10: `getNeighbors` leaves the receiver and the training slice as they were;
every returned record agrees with some training record on x1, x2, label and
prediction and carries the Euclidean distance of that record to the query; and
the result does not depend on the distance fields found in the query or in the
training records, so calls on the same training slice are independent. -/
theorem getNeighbors_frame {F : Type} [LinearOrderedField F] [FloorRing F] (sqrt : F → F)
    (d : datum F) (train : List (datum F)) (k : Int) :
    (getNeighborsRun sqrt d train).d = d
      ∧ (getNeighborsRun sqrt d train).train = train
      ∧ (∀ res, getNeighbors sqrt d train k = some res → ∀ r ∈ res, ∃ t ∈ train,
          r.x1 = t.x1 ∧ r.x2 = t.x2 ∧ r.label = t.label ∧ r.prediction = t.prediction
            ∧ r.distance = sqrt (fadd (powTwo (fsub t.x1 d.x1)) (powTwo (fsub t.x2 d.x2))))
      ∧ (∀ (stale : datum F → F) (x : F),
          getNeighbors sqrt { d with distance := x }
              (train.map (fun t => { t with distance := stale t })) k
            = getNeighbors sqrt d train k) := by
  refine ⟨by rw [getNeighborsRun_eq], by rw [getNeighborsRun_eq], ?_, ?_⟩
  · intro res hres r hr
    unfold getNeighbors at hres
    simp only at hres
    split at hres
    · simp only [Option.some.injEq] at hres
      subst hres
      have hmem := List.mem_of_mem_drop hr
      rw [getNeighborsRun_eq] at hmem
      have hmem2 := (sliceStable_perm lessDistance _).mem_iff.mp hmem
      obtain ⟨t, ht, rfl⟩ := List.mem_map.mp hmem2
      exact ⟨t, ht, rfl, rfl, rfl, rfl, rfl⟩
    · exact absurd hres (by simp)
  · intro stale x
    unfold getNeighbors
    rw [getNeighborsRun_eq, getNeighborsRun_eq, List.map_map]
    rfl

/-- Witness for `getNeighbors_frame`: the call of C1 succeeds, and its result
satisfies the third part of the theorem. -/
theorem getNeighbors_frame_witness :
    getNeighbors sqrtQ (⟨0, 1, 0, 0, 0⟩ : datum ℚ) [⟨0, 0, 1, 0, 0⟩, ⟨3, 5, 2, 0, 0⟩] 1
        = some [⟨3, 5, 2, 0, 5⟩]
      ∧ ∀ r ∈ ([⟨3, 5, 2, 0, 5⟩] : List (datum ℚ)),
          ∃ t ∈ ([⟨0, 0, 1, 0, 0⟩, ⟨3, 5, 2, 0, 0⟩] : List (datum ℚ)),
            r.x1 = t.x1 ∧ r.x2 = t.x2 ∧ r.label = t.label ∧ r.prediction = t.prediction
              ∧ r.distance = sqrtQ (fadd (powTwo (fsub t.x1 0)) (powTwo (fsub t.x2 1))) := by
  have hn := getNeighbors_run_k1
  exact ⟨hn, (getNeighbors_frame sqrtQ ⟨0, 1, 0, 0, 0⟩
    [⟨0, 0, 1, 0, 0⟩, ⟨3, 5, 2, 0, 0⟩] 1).2.2.1 _ hn⟩

/-! ## Claims about `getClass` -/

/-- C3: when one label occurs strictly more often among the neighbours than every
other label, `getClass` returns that label, for every order in which the tally is
traversed. -/
theorem getClass_majority {F : Type}
    (order : List (Int × Nat) → List (Int × Nat)) (horder : ∀ m, (order m).Perm m)
    (d : datum F) (neighbors : List (datum F)) (l : Int)
    (hmaj : ∀ l', l' ≠ l →
      (neighbors.map (fun v => v.label)).count l' < (neighbors.map (fun v => v.label)).count l) :
    getClass order d neighbors = l := by
  have hpos : 0 < (neighbors.map (fun v => v.label)).count l := by
    have := hmaj (l + 1) (by omega)
    omega
  have hmem : (l, (neighbors.map (fun v => v.label)).count l) ∈ order (tally neighbors) :=
    (horder _).mem_iff.mpr (tally_complete neighbors l hpos)
  obtain ⟨ha, _, hc⟩ := pickStep_foldl (order (tally neighbors)) (0, 0)
  have hge := hc _ hmem
  unfold getClass
  rcases ha with ha | ha
  · rw [ha] at hge
    simp only at hge
    omega
  · have hent := tally_entry neighbors _ ((horder _).mem_iff.mp ha)
    simp only at hent hge
    by_contra hne
    have := hmaj _ hne
    omega

/-- Witness for `getClass_majority`: labels 1, 2, 1 with the tally traversed in
reverse. -/
theorem getClass_majority_witness :
    getClass List.reverse (⟨0, 0, 0, 0, 0⟩ : datum ℚ)
      [⟨0, 0, 1, 0, 0⟩, ⟨1, 0, 2, 0, 0⟩, ⟨2, 0, 1, 0, 0⟩] = 1 :=
  getClass_majority List.reverse (fun m => List.reverse_perm m) _ _ 1 (by
    intro l' hl'
    have h1 : ¬ (1 : Int) = l' := fun h => hl' h.symm
    by_cases h2 : (2 : Int) = l'
    · subst h2; decide
    · simp [List.count_cons, h1, h2])

/-! ## Claims about `getAccuracy` -/

/-- C4: for a non-empty test list the accuracy is the number of records whose
label equals their prediction, divided by the length of the list. -/
theorem getAccuracy_fst {F : Type} [LinearOrderedField F] (arr : List (datum F))
    (hne : arr ≠ []) :
    (getAccuracy arr).1
      = Float64.finite
          (((arr.countP (fun r => decide (r.label = r.prediction)) : Nat) : F)
            / (arr.length : F)) :=
  getAccuracy_finite arr hne

/-- Witness for `getAccuracy_fst`: one hit out of two records. -/
theorem getAccuracy_fst_witness :
    (getAccuracy ([⟨0, 1, 1, 1, 0⟩, ⟨0, 1, 1, 2, 0⟩] : List (datum ℚ))).1
      = Float64.finite (1 / 2) := by
  rw [getAccuracy_fst _ (by simp)]
  norm_num [List.countP_cons]

/-- C5: the second result of `getAccuracy` is the list of the records whose label
differs from their prediction, in input order, each record as it was. -/
theorem getAccuracy_snd {F : Type} [LinearOrderedField F] (arr : List (datum F)) :
    (getAccuracy arr).2 = arr.filter (fun r => decide (r.label ≠ r.prediction)) := by
  rw [getAccuracy_eq]

/-- C6: for a non-empty test list the accuracy is a finite number between 0 and
1, and it is 1 exactly when the list of misclassified records is empty. -/
theorem getAccuracy_bounds {F : Type} [LinearOrderedField F] (arr : List (datum F))
    (hne : arr ≠ []) :
    ∃ a : F, (getAccuracy arr).1 = Float64.finite a ∧ 0 ≤ a ∧ a ≤ 1
      ∧ (a = 1 ↔ (getAccuracy arr).2 = []) := by
  refine ⟨_, getAccuracy_finite arr hne, ?_⟩
  rw [getAccuracy_eq]
  have hlen : 0 < arr.length := List.length_pos.mpr hne
  have hlenF : (0 : F) < (arr.length : F) := Nat.cast_pos.mpr hlen
  have hle : arr.countP (fun r => decide (r.label = r.prediction)) ≤ arr.length :=
    List.countP_le_length _
  have hleF : ((arr.countP (fun r => decide (r.label = r.prediction)) : Nat) : F)
      ≤ (arr.length : F) := Nat.cast_le.mpr hle
  refine ⟨div_nonneg (Nat.cast_nonneg _) hlenF.le, (div_le_one hlenF).mpr hleF, ?_⟩
  simp only
  rw [div_eq_one_iff_eq hlenF.ne', Nat.cast_inj, List.countP_eq_length, List.filter_eq_nil_iff]
  simp

/-- Witness for `getAccuracy_bounds`: one hit out of two records. -/
theorem getAccuracy_bounds_witness :
    ∃ a : ℚ, (getAccuracy ([⟨0, 1, 1, 1, 0⟩, ⟨0, 1, 1, 2, 0⟩] : List (datum ℚ))).1
        = Float64.finite a ∧ 0 ≤ a ∧ a ≤ 1
      ∧ (a = 1
          ↔ (getAccuracy ([⟨0, 1, 1, 1, 0⟩, ⟨0, 1, 1, 2, 0⟩] : List (datum ℚ))).2 = []) :=
  getAccuracy_bounds _ (by simp)

/-! ## Claims about `shuffle` and `splitData` -/

/-- C7: for a ratio in [0,1], an input of fewer than 2^53 records (every slice
that fits in memory) and any indices drawn within range by the random source,
`shuffle` followed by `splitData` succeeds, the two parts have len(input)
elements in total, and train followed by test is a permutation of the input. -/
theorem shuffle_splitData_perm {F : Type} [LinearOrderedField F] [FloorRing F] {α : Type}
    (intn : Nat → Nat) (hintn : ∀ i, intn i < i + 1)
    (arr : List α) (hlen : arr.length < 2 ^ 53)
    (ratio : F) (h0 : 0 ≤ ratio) (h1 : ratio ≤ 1) :
    ∃ arr' train test, shuffle intn arr = some arr'
      ∧ splitData arr' ratio = some (train, test)
      ∧ train.length + test.length = arr.length
      ∧ (train ++ test).Perm arr := by
  obtain ⟨arr', hs, hp⟩ := shuffle_perm intn hintn arr
  refine ⟨arr', _, _, hs, splitData_eq arr' ratio h0 h1 (by rw [hp.length_eq]; exact hlen),
    ?_, ?_⟩
  · rw [← List.length_append, List.take_append_drop, hp.length_eq]
  · rw [List.take_append_drop]
    exact hp

/-- Witness for `shuffle_splitData_perm`: five elements, ratio 3/4, every draw 0. -/
theorem shuffle_splitData_perm_witness :
    ∃ arr' train test, shuffle (fun _ => 0) [1, 2, 3, 4, 5] = some arr'
      ∧ splitData arr' (3 / 4 : ℚ) = some (train, test)
      ∧ train.length + test.length = [1, 2, 3, 4, 5].length
      ∧ (train ++ test).Perm [1, 2, 3, 4, 5] :=
  shuffle_splitData_perm (fun _ => 0) (fun i => Nat.succ_pos i) [1, 2, 3, 4, 5] (by decide)
    (3 / 4 : ℚ) (by norm_num) (by norm_num)

/-- C8: for a ratio in [0,1] and fewer than 2^53 elements, `splitData` returns as
train the first floor(ratio * len(arr)) elements of arr and as test the remaining
elements, in order; the product is the `float64` product that the code
computes. -/
theorem splitData_take_drop {F : Type} [LinearOrderedField F] [FloorRing F] {α : Type}
    (arr : List α) (ratio : F) (h0 : 0 ≤ ratio) (h1 : ratio ≤ 1)
    (hlen : arr.length < 2 ^ 53) :
    splitData arr ratio
      = some (arr.take (Nat.floor (fmul ratio (arr.length : F))),
          arr.drop (Nat.floor (fmul ratio (arr.length : F)))) :=
  splitData_eq arr ratio h0 h1 hlen

/-- Witness for `splitData_take_drop`: ten elements and the `float64` nearest to
0.7, where the `float64` product is 7 although the exact product is below 7. -/
theorem splitData_take_drop_witness :
    splitData [1, 2, 3, 4, 5, 6, 7, 8, 9, 10] (3152519739159347 / 2 ^ 52 : ℚ)
      = some ([1, 2, 3, 4, 5, 6, 7], [8, 9, 10]) := by
  rw [splitData_take_drop [1, 2, 3, 4, 5, 6, 7, 8, 9, 10] (3152519739159347 / 2 ^ 52 : ℚ)
    (by norm_num) (by norm_num) (by decide)]
  have h : fmul (3152519739159347 / 2 ^ 52 : ℚ)
      (([1, 2, 3, 4, 5, 6, 7, 8, 9, 10].length : Nat) : ℚ) = 7 := by
    have := fmul_f07_ten
    norm_num at this ⊢
    exact this
  rw [h, Nat.floor_ofNat]
  rfl

/-! ## Claims about `euclideanDistance` -/

/-- C11 (counterexample): the records (2^-600, 0) and (0, 0) differ in x1, yet
the stored distance is exactly 0: the square 2^-1200 of the difference is below
half the least positive `float64` and rounds to 0. -/
theorem euclideanDistance_zero_distinct :
    (euclideanDistance sqrtQ (⟨2 ^ (-600 : Int), 0, 1, 0, 0⟩ : datum ℚ)
        ⟨0, 0, 2, 0, 0⟩).distance = 0
      ∧ (2 : ℚ) ^ (-600 : Int) ≠ 0 := by
  constructor
  · have h1 : fsub ((2 : ℚ) ^ (-600 : Int)) 0 = 2 ^ (-600 : Int) := by
      have := roundF64_representable (F := ℚ) 1 (-600) (by norm_num) (by norm_num)
      unfold fsub
      rw [sub_zero]
      simpa using this
    have h2 : ((2 : ℚ) ^ (-600 : Int)) ^ 2 = 2 ^ (-1200 : Int) := by
      rw [← zpow_natCast, ← zpow_mul]
      norm_num
    have h3 : powTwo ((2 : ℚ) ^ (-600 : Int)) = 0 := by
      unfold powTwo
      rw [h2]
      exact roundF64_underflow _ (two_zpow_pos _).le
        (zpow_le_zpow_right₀ (by norm_num) (by norm_num))
    have h4 : sqrtQ 0 = 0 := (sqrtQ_eq_zero_iff 0 le_rfl).mpr rfl
    show sqrtQ (fadd (powTwo (fsub ((2 : ℚ) ^ (-600 : Int)) 0)) (powTwo (fsub (0 : ℚ) 0))) = 0
    rw [h1, h3, fsub_self, powTwo_zero, fadd_zero_zero, h4]
  · exact (two_zpow_pos _).ne'

/-- C11 (amended): for a square root that is non-negative on non-negative
arguments and 0 at 0, the distance stored by `euclideanDistance` is symmetric in
the two records, non-negative, and 0 whenever the two records have the same x1
and x2; in particular the distance of a record to itself is 0. -/
theorem euclideanDistance_metric {F : Type} [LinearOrderedField F] [FloorRing F]
    (sqrt : F → F) (hnonneg : ∀ x, 0 ≤ x → 0 ≤ sqrt x) (hzero : sqrt 0 = 0)
    (a b : datum F) :
    (euclideanDistance sqrt a b).distance = (euclideanDistance sqrt b a).distance
      ∧ 0 ≤ (euclideanDistance sqrt a b).distance
      ∧ (a.x1 = b.x1 ∧ a.x2 = b.x2 → (euclideanDistance sqrt a b).distance = 0)
      ∧ (euclideanDistance sqrt a a).distance = 0 := by
  have hself : ∀ p : datum F, (euclideanDistance sqrt p p).distance = 0 := by
    intro p
    simp only [euclideanDistance, fsub_self, powTwo_zero, fadd_zero_zero, hzero]
  refine ⟨?_, ?_, ?_, hself a⟩
  · simp only [euclideanDistance]
    rw [fsub_swap a.x1 b.x1, fsub_swap a.x2 b.x2, powTwo_neg, powTwo_neg]
  · simp only [euclideanDistance]
    exact hnonneg _ (fadd_nonneg _ _ (powTwo_nonneg _) (powTwo_nonneg _))
  · rintro ⟨h1, h2⟩
    simp only [euclideanDistance, h1, h2, fsub_self, powTwo_zero, fadd_zero_zero, hzero]

/-- Witness for `euclideanDistance_metric`: two records at (3,4) with different
labels, and the square root `sqrtQ`. -/
theorem euclideanDistance_metric_witness :
    (euclideanDistance sqrtQ (⟨3, 4, 1, 0, 0⟩ : datum ℚ) ⟨3, 4, 2, 0, 0⟩).distance
        = (euclideanDistance sqrtQ (⟨3, 4, 2, 0, 0⟩ : datum ℚ) ⟨3, 4, 1, 0, 0⟩).distance
      ∧ 0 ≤ (euclideanDistance sqrtQ (⟨3, 4, 1, 0, 0⟩ : datum ℚ) ⟨3, 4, 2, 0, 0⟩).distance
      ∧ (euclideanDistance sqrtQ (⟨3, 4, 1, 0, 0⟩ : datum ℚ) ⟨3, 4, 2, 0, 0⟩).distance = 0
      ∧ (euclideanDistance sqrtQ (⟨3, 4, 1, 0, 0⟩ : datum ℚ) ⟨3, 4, 1, 0, 0⟩).distance = 0 :=
  have h := euclideanDistance_metric sqrtQ (fun x _ => sqrtQ_nonneg x)
    ((sqrtQ_eq_zero_iff 0 le_rfl).mpr rfl) ⟨3, 4, 1, 0, 0⟩ ⟨3, 4, 2, 0, 0⟩
  ⟨h.1, h.2.1, h.2.2.1 ⟨rfl, rfl⟩, h.2.2.2⟩

/-! ## Further claims about `getNeighbors` -/

/-- C12 (counterexample): with two training records and k = 0, `getNeighbors`
is not rejected: it succeeds with the empty neighbour list. -/
theorem getNeighbors_zero_not_rejected :
    getNeighbors sqrtQ (⟨0, 1, 0, 0, 0⟩ : datum ℚ) [⟨0, 0, 1, 0, 0⟩, ⟨3, 5, 2, 0, 0⟩] 0
      = some [] :=
  getNeighbors_k0 sqrtQ _ _

/-- C12 (amended): for every query and every training list, `getNeighbors` with
k = 0 succeeds and returns the empty neighbour list. -/
theorem getNeighbors_zero {F : Type} [LinearOrderedField F] [FloorRing F] (sqrt : F → F)
    (d : datum F) (train : List (datum F)) :
    getNeighbors sqrt d train 0 = some [] :=
  getNeighbors_k0 sqrt d train

/-- C13: for k > len(train), `getNeighbors` fails (the slice expression panics);
it returns no list at all. -/
theorem getNeighbors_fails_of_gt {F : Type} [LinearOrderedField F] [FloorRing F] (sqrt : F → F)
    (d : datum F) (train : List (datum F)) (k : Int) (hk : (train.length : Int) < k) :
    getNeighbors sqrt d train k = none :=
  getNeighbors_none_of_lt sqrt d train k hk

/-- Witness for `getNeighbors_fails_of_gt`: two training records and k = 3. -/
theorem getNeighbors_fails_of_gt_witness :
    getNeighbors sqrtQ (⟨0, 1, 0, 0, 0⟩ : datum ℚ) [⟨0, 0, 1, 0, 0⟩, ⟨3, 5, 2, 0, 0⟩] 3
      = none :=
  getNeighbors_fails_of_gt sqrtQ ⟨0, 1, 0, 0, 0⟩ [⟨0, 0, 1, 0, 0⟩, ⟨3, 5, 2, 0, 0⟩] 3
    (by decide)

/-- C17 (code defect): at query (0,0) the training records (3,4) at position 0
and (4,3) at position 1 are both at distance 5; with k = 1 `getNeighbors` returns
the record of position 1 and leaves out the record of position 0. -/
theorem getNeighbors_tie_later_wins :
    getNeighbors sqrtQ (⟨0, 0, 0, 0, 0⟩ : datum ℚ) [⟨3, 4, 1, 0, 0⟩, ⟨4, 3, 2, 0, 0⟩] 1
        = some [⟨4, 3, 2, 0, 5⟩]
      ∧ (euclideanDistance sqrtQ (⟨3, 4, 1, 0, 0⟩ : datum ℚ) ⟨0, 0, 0, 0, 0⟩).distance = 5
      ∧ (euclideanDistance sqrtQ (⟨4, 3, 2, 0, 0⟩ : datum ℚ) ⟨0, 0, 0, 0, 0⟩).distance = 5 := by
  refine ⟨?_, ?_, ?_⟩
  · norm_num [getNeighbors, getNeighborsRun, getNeighborsLoop, getNeighborsBody,
      euclideanDistance, List.range, List.range.loop, sliceStable, insertStable, lessDistance,
      datum.zero, fsub, fadd, powTwo, roundF64_zero, roundF64_one, roundF64_neg, roundF64_3, roundF64_4, roundF64_9, roundF64_16, roundF64_25,
      sqrtQ_25]
  · norm_num [euclideanDistance, fsub, fadd, powTwo, roundF64_zero, roundF64_one, roundF64_neg,
      roundF64_3, roundF64_4, roundF64_9, roundF64_16, roundF64_25, sqrtQ_25]
  · norm_num [euclideanDistance, fsub, fadd, powTwo, roundF64_zero, roundF64_one, roundF64_neg,
      roundF64_3, roundF64_4, roundF64_9, roundF64_16, roundF64_25, sqrtQ_25]

/-- C18: for 0 ≤ k ≤ len(train), `getNeighbors` succeeds, the returned list is in
non-decreasing order of distance, and for every distance value the returned
records at that distance appear in the relative order they have in the training
list. -/
theorem getNeighbors_sorted_stable {F : Type} [LinearOrderedField F] [FloorRing F] (sqrt : F → F)
    (d : datum F) (train : List (datum F)) (k : Int)
    (h0 : 0 ≤ k) (hk : k ≤ (train.length : Int)) :
    ∃ res, getNeighbors sqrt d train k = some res
      ∧ res.Pairwise (fun a b => a.distance ≤ b.distance)
      ∧ ∀ c : F, (res.filter (fun r => decide (r.distance = c))).Sublist
          ((train.map (fun v => euclideanDistance sqrt v d)).filter
            (fun r => decide (r.distance = c))) := by
  refine ⟨_, getNeighbors_eq sqrt d train k h0 hk, ?_, ?_⟩
  · exact (sliceStable_sorted _).sublist (List.drop_sublist _ _)
  · intro c
    rw [← sliceStable_filter c (train.map (fun v => euclideanDistance sqrt v d))]
    exact (List.drop_sublist _ _).filter _

/-- Witness for `getNeighbors_sorted_stable`: the tied records of C17 with k = 2. -/
theorem getNeighbors_sorted_stable_witness :
    ∃ res, getNeighbors sqrtQ (⟨0, 0, 0, 0, 0⟩ : datum ℚ)
        [⟨3, 4, 1, 0, 0⟩, ⟨4, 3, 2, 0, 0⟩] 2 = some res
      ∧ res.Pairwise (fun a b => a.distance ≤ b.distance)
      ∧ ∀ c : ℚ, (res.filter (fun r => decide (r.distance = c))).Sublist
          ((([⟨3, 4, 1, 0, 0⟩, ⟨4, 3, 2, 0, 0⟩] : List (datum ℚ)).map
              (fun v => euclideanDistance sqrtQ v ⟨0, 0, 0, 0, 0⟩)).filter
            (fun r => decide (r.distance = c))) :=
  getNeighbors_sorted_stable sqrtQ ⟨0, 0, 0, 0, 0⟩ [⟨3, 4, 1, 0, 0⟩, ⟨4, 3, 2, 0, 0⟩] 2
    (by decide) (by decide)

/-- C19: for 0 ≤ k ≤ len(train), `getNeighbors` returns the last k elements of
the training list scored with its distances and stably sorted by ascending
distance; every returned record has a distance greater than or equal to the
distance of every record that is not returned. -/
theorem getNeighbors_last_k {F : Type} [LinearOrderedField F] [FloorRing F] (sqrt : F → F)
    (d : datum F) (train : List (datum F)) (k : Int)
    (h0 : 0 ≤ k) (hk : k ≤ (train.length : Int)) :
    ∃ sorted : List (datum F),
      sorted.Perm (train.map (fun v => euclideanDistance sqrt v d))
        ∧ sorted.Pairwise (fun a b => a.distance ≤ b.distance)
        ∧ (∀ c : F, sorted.filter (fun r => decide (r.distance = c))
            = (train.map (fun v => euclideanDistance sqrt v d)).filter
                (fun r => decide (r.distance = c)))
        ∧ getNeighbors sqrt d train k = some (sorted.drop (train.length - k.toNat))
        ∧ ∀ r ∈ sorted.drop (train.length - k.toNat),
            ∀ t ∈ sorted.take (train.length - k.toNat), t.distance ≤ r.distance := by
  refine ⟨sliceStable lessDistance (train.map (fun v => euclideanDistance sqrt v d)),
    sliceStable_perm _ _, sliceStable_sorted _, fun c => sliceStable_filter c _,
    getNeighbors_eq sqrt d train k h0 hk, ?_⟩
  intro r hr t ht
  have hs := sliceStable_sorted (train.map (fun v => euclideanDistance sqrt v d))
  rw [← List.take_append_drop (train.length - k.toNat)
    (sliceStable lessDistance (train.map (fun v => euclideanDistance sqrt v d)))] at hs
  exact (List.pairwise_append.mp hs).2.2 t ht r hr

/-- Witness for `getNeighbors_last_k`: the training records of C1 with k = 1. -/
theorem getNeighbors_last_k_witness :
    ∃ sorted : List (datum ℚ),
      sorted.Perm (([⟨0, 0, 1, 0, 0⟩, ⟨3, 5, 2, 0, 0⟩] : List (datum ℚ)).map
          (fun v => euclideanDistance sqrtQ v ⟨0, 1, 0, 0, 0⟩))
        ∧ sorted.Pairwise (fun a b => a.distance ≤ b.distance)
        ∧ (∀ c : ℚ, sorted.filter (fun r => decide (r.distance = c))
            = (([⟨0, 0, 1, 0, 0⟩, ⟨3, 5, 2, 0, 0⟩] : List (datum ℚ)).map
                (fun v => euclideanDistance sqrtQ v ⟨0, 1, 0, 0, 0⟩)).filter
                (fun r => decide (r.distance = c)))
        ∧ getNeighbors sqrtQ ⟨0, 1, 0, 0, 0⟩ [⟨0, 0, 1, 0, 0⟩, ⟨3, 5, 2, 0, 0⟩] 1
            = some (sorted.drop
                (([⟨0, 0, 1, 0, 0⟩, ⟨3, 5, 2, 0, 0⟩] : List (datum ℚ)).length - (1 : Int).toNat))
        ∧ ∀ r ∈ sorted.drop
              (([⟨0, 0, 1, 0, 0⟩, ⟨3, 5, 2, 0, 0⟩] : List (datum ℚ)).length - (1 : Int).toNat),
            ∀ t ∈ sorted.take
              (([⟨0, 0, 1, 0, 0⟩, ⟨3, 5, 2, 0, 0⟩] : List (datum ℚ)).length - (1 : Int).toNat),
              t.distance ≤ r.distance :=
  getNeighbors_last_k sqrtQ ⟨0, 1, 0, 0, 0⟩ [⟨0, 0, 1, 0, 0⟩, ⟨3, 5, 2, 0, 0⟩] 1
    (by decide) (by decide)

/-! ## Further claims about `getAccuracy` and `splitData` -/

/-- C14 (counterexample): on the empty test list `getAccuracy` is not stopped by
a guard: it divides 0 by 0 and returns the NaN of that division, with an empty
list of misclassified records. -/
theorem getAccuracy_nil_returns :
    getAccuracy ([] : List (datum ℚ)) = (Float64.nan, []) :=
  getAccuracy_empty

/-- C14 (amended): `getAccuracy` applied to the empty test list does not fail: it
performs the division 0/0 without a guard and returns its result, a NaN,
together with an empty list of misclassified records. -/
theorem getAccuracy_nil {F : Type} [LinearOrderedField F] :
    getAccuracy ([] : List (datum F)) = (Float64.nan, []) :=
  getAccuracy_empty

/-- C15 (counterexample): on a list of three elements `splitData` panics for
ratio 2 (split index 6) and for ratio -1 (split index -3). -/
theorem splitData_panics_outside :
    splitData [1, 2, 3] (2 : ℚ) = none ∧ splitData [1, 2, 3] (-1 : ℚ) = none :=
  ⟨(splitData_eq_none_iff _ _).mpr (Or.inr (by rw [fmul_two_three]; norm_num)),
    (splitData_eq_none_iff _ _).mpr (Or.inl (by rw [fmul_neg_one_three]; norm_num))⟩

/-- C15 (amended): on a list of fewer than 2^53 elements, `splitData` returns an
empty train list and test equal to arr for every ratio ≤ 0 whose `float64`
product with len(arr) is above -1, and an empty test list and train equal to arr
for every ratio ≥ 1 whose `float64` product with len(arr) is below len(arr) + 1;
this covers ratio 0 and ratio 1. -/
theorem splitData_edge_ratios {F : Type} [LinearOrderedField F] [FloorRing F] {α : Type}
    (arr : List α) (hlen : arr.length < 2 ^ 53) :
    (∀ ratio : F, ratio ≤ 0 → -1 < fmul ratio (arr.length : F) →
        splitData arr ratio = some ([], arr))
      ∧ (∀ ratio : F, 1 ≤ ratio → fmul ratio (arr.length : F) < (arr.length : F) + 1 →
        splitData arr ratio = some (arr, []))
      ∧ splitData arr (0 : F) = some ([], arr)
      ∧ splitData arr (1 : F) = some (arr, []) := by
  have hn : (0 : F) ≤ (arr.length : F) := Nat.cast_nonneg _
  have h0 : fmul (0 : F) (arr.length : F) = 0 := by
    unfold fmul
    rw [zero_mul, roundF64_zero]
  have h1 : fmul (1 : F) (arr.length : F) = (arr.length : F) := by
    unfold fmul
    rw [one_mul, roundF64_natCast _ hlen]
  refine ⟨?_, ?_, ?_, ?_⟩
  · intro ratio hr hp
    have : fmul ratio (arr.length : F) ≤ 0 :=
      roundF64_nonpos _ (mul_nonpos_of_nonpos_of_nonneg hr hn)
    exact splitData_train_empty arr ratio hp (lt_of_le_of_lt this one_pos)
  · intro ratio hr hp
    have : (arr.length : F) ≤ ratio * (arr.length : F) := by
      calc (arr.length : F) = 1 * (arr.length : F) := (one_mul _).symm
        _ ≤ ratio * (arr.length : F) := mul_le_mul_of_nonneg_right hr hn
    exact splitData_test_empty arr ratio (natCast_le_roundF64 _ _ hlen this) hp
  · exact splitData_train_empty arr 0 (by rw [h0]; norm_num) (by rw [h0]; norm_num)
  · exact splitData_test_empty arr 1 (by rw [h1]) (by rw [h1]; linarith)

/-- Witness for `splitData_edge_ratios`: three elements with ratio -1/4 and with
ratio 5/4. -/
theorem splitData_edge_ratios_witness :
    splitData [1, 2, 3] (-1 / 4 : ℚ) = some ([], [1, 2, 3])
      ∧ splitData [1, 2, 3] (5 / 4 : ℚ) = some ([1, 2, 3], []) :=
  ⟨(splitData_edge_ratios [1, 2, 3] (by decide)).1 (-1 / 4 : ℚ) (by norm_num)
      (by rw [fmul_neg_quarter_three]; norm_num),
    (splitData_edge_ratios [1, 2, 3] (by decide)).2.1 (5 / 4 : ℚ) (by norm_num)
      (by rw [fmul_five_quarters_three]; norm_num)⟩

/-- C16 (counterexample): on a list of three elements `splitData` does not fail
for ratio -1/4 (split index 0) nor for ratio 5/4 (split index 3), which lie
outside [0,1]. -/
theorem splitData_outside_succeeds :
    splitData [1, 2, 3] (-1 / 4 : ℚ) = some ([], [1, 2, 3])
      ∧ splitData [1, 2, 3] (5 / 4 : ℚ) = some ([1, 2, 3], []) :=
  ⟨splitData_train_empty _ _ (by rw [fmul_neg_quarter_three]; norm_num)
      (by rw [fmul_neg_quarter_three]; norm_num),
    splitData_test_empty _ _ (by rw [fmul_five_quarters_three]; norm_num)
      (by rw [fmul_five_quarters_three]; norm_num)⟩

/-- C16 (amended): `splitData` fails (a slice expression panics) for every ratio
below 0 whose `float64` product with len(arr) is at most -1, and for every ratio
above 1 whose `float64` product with len(arr) is at least len(arr) + 1. -/
theorem splitData_fails_outside {F : Type} [LinearOrderedField F] [FloorRing F] {α : Type}
    (arr : List α) :
    (∀ ratio : F, ratio < 0 → fmul ratio (arr.length : F) ≤ -1 →
        splitData arr ratio = none)
      ∧ (∀ ratio : F, 1 < ratio → (arr.length : F) + 1 ≤ fmul ratio (arr.length : F) →
        splitData arr ratio = none) :=
  ⟨fun ratio _ h => (splitData_eq_none_iff arr ratio).mpr (Or.inl h),
    fun ratio _ h => (splitData_eq_none_iff arr ratio).mpr (Or.inr h)⟩

/-- Witness for `splitData_fails_outside`: three elements with the negative of
the `float64` nearest to 1/3, whose `float64` product with 3 is exactly -1, and
with ratio 2. -/
theorem splitData_fails_outside_witness :
    splitData [1, 2, 3] (-(6004799503160661 / 2 ^ 54) : ℚ) = none
      ∧ splitData [1, 2, 3] (2 : ℚ) = none :=
  ⟨(splitData_fails_outside [1, 2, 3]).1 (-(6004799503160661 / 2 ^ 54) : ℚ) (by norm_num)
      (by rw [fmul_neg_third_three]),
    (splitData_fails_outside [1, 2, 3]).2 (2 : ℚ) (by norm_num)
      (by rw [fmul_two_three]; norm_num)⟩

/-! ## Further claims about `getClass` -/

/-- C20: for a non-empty neighbour list and every traversal order of the tally,
`getClass` returns a label that occurs in the list and that no label outnumbers;
for the empty neighbour list it returns 0. -/
theorem getClass_max {F : Type}
    (order : List (Int × Nat) → List (Int × Nat)) (horder : ∀ m, (order m).Perm m)
    (d : datum F) (neighbors : List (datum F)) :
    (neighbors ≠ [] →
        getClass order d neighbors ∈ neighbors.map (fun v => v.label)
          ∧ ∀ l : Int, (neighbors.map (fun v => v.label)).count l
              ≤ (neighbors.map (fun v => v.label)).count (getClass order d neighbors))
      ∧ getClass order d ([] : List (datum F)) = 0 := by
  constructor
  · intro hne
    obtain ⟨v, vs, rfl⟩ := List.exists_cons_of_ne_nil hne
    have hpos : 0 < (List.map (fun v => v.label) (v :: vs)).count v.label := by
      simp
    have hmem0 := (horder _).mem_iff.mpr (tally_complete (v :: vs) v.label hpos)
    obtain ⟨ha, _, hc⟩ := pickStep_foldl (order (tally (v :: vs))) (0, 0)
    have hge := hc _ hmem0
    have hin : (((order (tally (v :: vs))).foldl pickStep (0, 0)).2,
        ((order (tally (v :: vs))).foldl pickStep (0, 0)).1) ∈ order (tally (v :: vs)) := by
      rcases ha with ha | ha
      · rw [ha] at hge
        simp only at hge
        omega
      · exact ha
    obtain ⟨hcnt, hp⟩ := tally_entry (v :: vs) _ ((horder _).mem_iff.mp hin)
    simp only at hcnt hp
    unfold getClass
    refine ⟨List.count_pos_iff.mp (by omega), ?_⟩
    intro l
    by_cases hl : 0 < (List.map (fun v => v.label) (v :: vs)).count l
    · have := hc _ ((horder _).mem_iff.mpr (tally_complete (v :: vs) l hl))
      simp only at this
      omega
    · omega
  · have hnil : order (tally ([] : List (datum F))) = [] :=
      List.perm_nil.mp (horder _)
    unfold getClass
    rw [hnil]
    rfl

/-- Witness for `getClass_max`: labels 1, 2, 2, 1 (a tie) with the tally traversed
in reverse. -/
theorem getClass_max_witness :
    (getClass List.reverse (⟨0, 0, 0, 0, 0⟩ : datum ℚ)
          [⟨0, 0, 1, 0, 0⟩, ⟨1, 0, 2, 0, 0⟩, ⟨2, 0, 2, 0, 0⟩, ⟨3, 0, 1, 0, 0⟩]
        ∈ ([⟨0, 0, 1, 0, 0⟩, ⟨1, 0, 2, 0, 0⟩, ⟨2, 0, 2, 0, 0⟩, ⟨3, 0, 1, 0, 0⟩] :
            List (datum ℚ)).map (fun v => v.label))
      ∧ getClass List.reverse (⟨0, 0, 0, 0, 0⟩ : datum ℚ) [] = 0 :=
  ⟨((getClass_max List.reverse (fun m => List.reverse_perm m) ⟨0, 0, 0, 0, 0⟩
      [⟨0, 0, 1, 0, 0⟩, ⟨1, 0, 2, 0, 0⟩, ⟨2, 0, 2, 0, 0⟩, ⟨3, 0, 1, 0, 0⟩]).1 (by simp)).1,
    (getClass_max List.reverse (fun m => List.reverse_perm m) ⟨0, 0, 0, 0, 0⟩
      [⟨0, 0, 1, 0, 0⟩, ⟨1, 0, 2, 0, 0⟩, ⟨2, 0, 2, 0, 0⟩, ⟨3, 0, 1, 0, 0⟩]).2⟩

end Knn
